import Mathlib

/-!
Shallow embedding of the `custom-rdbms-flask` engine (src/rdbms/engine.py and
src/rdbms/parser.py) in Lean 4, together with proofs settling the frozen claims
about its specification.

Modelling conventions:
* Python runtime values appearing in rows, parsed literals and index keys are
  modelled by the inductive type `Rdb.Value`.  Python floats are modelled by
  rationals (`Rat`); no claim in scope observes IEEE rounding, infinities or
  NaN, so this collapse is harmless (it is noted at each point of use).
* Python dicts are modelled by insertion-ordered association lists
  (`Rdb.Row := List (String × Value)`), with `dictInsert` reproducing Python's
  assignment semantics (update in place, else append) and `pyDictGet`
  reproducing `dict.get(k)` (missing key ↦ `None`, i.e. `vNull`).
* Python `==` on values (which identifies `1`, `1.0` and `True`, and is the
  equality used by `dict` keys, `in`, and `list.remove`) is modelled by `pyEq`;
  Python `<` (which raises `TypeError` on incomparable values) is modelled by
  the partial comparison `pyLt : Value → Value → Option Bool`.
* Fallible operations return `Option`; an exception raised part-way through a
  mutating loop is modelled by returning the mutated-so-far state together
  with a `none` result, mirroring what a caller of the Python code observes.
* Library functions from the Python standard library that the engine calls
  (`int(str)`, `float(str)`, `str.strip`, `str.lower`,
  `datetime.fromisoformat`, `datetime.now`) are modelled by executable Lean
  functions over ASCII strings; `datetime.now().isoformat()` is modelled by a
  fixed constant since no claim observes the ambient clock.
-/

set_option maxHeartbeats 1600000

namespace Rdb

/-- The runtime values stored in rows and produced by the parser.
`vFloat` models a Python float by a rational number. -/
inductive Value where
  | vInt (n : Int)
  | vText (s : String)
  | vBool (b : Bool)
  | vFloat (q : Rat)
  | vNull
  deriving DecidableEq, Repr

open Value

/-- Numeric view used by Python `==`/`<`/`max`: ints, floats and bools are all
numbers (`True == 1`, `0.0 == False`, …); texts and `None` are not. -/
def numOf : Value → Option Rat
  | vInt n => some (n : Rat)
  | vFloat q => some q
  | vBool b => some (cond b 1 0)
  | _ => none

/-- Python code-point comparison of strings, as a Bool on character lists. -/
def textLt : List Char → List Char → Bool
  | [], [] => false
  | [], _ :: _ => true
  | _ :: _, [] => false
  | c :: cs, d :: ds =>
    if c.toNat < d.toNat then true
    else if d.toNat < c.toNat then false
    else textLt cs ds

/-- Python `==` on values: numeric cross-type equality, string equality,
`None == None`; everything else unequal. -/
def pyEq (a b : Value) : Bool :=
  match numOf a, numOf b with
  | some x, some y => x == y
  | _, _ =>
    match a, b with
    | vText s, vText t => s == t
    | vNull, vNull => true
    | _, _ => false

/-- Python `<` on values; `none` models a `TypeError` (incomparable values).
Rational comparison uses the executable `Rat.blt` (definitionally `<`). -/
def pyLt (a b : Value) : Option Bool :=
  match numOf a, numOf b with
  | some x, some y => some (x.blt y)
  | _, _ =>
    match a, b with
    | vText s, vText t => some (textLt s.data t.data)
    | _, _ => none

/-- `pyLt` with a default, used only where comparability has been checked. -/
def pyLtB (a b : Value) : Bool := (pyLt a b).getD false

/-- A Python dict whose keys are strings, as an insertion-ordered assoc list. -/
abbrev Row := List (String × Value)

/-- First-match lookup: `d[k]` when the key is present. -/
def rowGet (r : Row) (k : String) : Option Value :=
  match r with
  | [] => none
  | (k', v) :: rest => if k' == k then some v else rowGet rest k

/-- Python `k in d`. -/
def containsKey (r : Row) (k : String) : Bool :=
  match r with
  | [] => false
  | (k', _) :: rest => k' == k || containsKey rest k

/-- Python `d.get(k)`: `None` when the key is missing. -/
def pyDictGet (r : Row) (k : String) : Value := (rowGet r k).getD vNull

/-- Python `d.get(k, dflt)`. -/
def pyDictGetD (r : Row) (k : String) (dflt : Value) : Value := (rowGet r k).getD dflt

/-- Python `d[k] = v`: update in place when present, append when absent. -/
def dictInsert (r : Row) (k : String) (v : Value) : Row :=
  match r with
  | [] => [(k, v)]
  | (k', v') :: rest => if k' == k then (k', v) :: rest else (k', v') :: dictInsert rest k v

/-- A hash index bucket map: Python dict from a value to a list of row ids.
Key lookup uses Python `==` (`pyEq`); ids are the raw values stored
(`row['_id']` or the insert-time counter). -/
abbrev Index := List (Value × List Value)

/-- `Index.lookup`: the bucket for `v`, or the empty list. -/
def idxLookup (idx : Index) (v : Value) : List Value :=
  match idx with
  | [] => []
  | (k, b) :: rest => if pyEq k v then b else idxLookup rest v

/-- `Index.add`: append `id` to the bucket for `value`, creating it if absent
(new dict keys are appended at the end, and an existing slot keeps its
original key object). -/
def idxAdd (idx : Index) (v id : Value) : Index :=
  match idx with
  | [] => [(v, [id])]
  | (k, b) :: rest => if pyEq k v then (k, b ++ [id]) :: rest else (k, b) :: idxAdd rest v id

/-- Python `list.remove` guarded by `in`: drop the first `==`-match, no-op if
absent. -/
def removeFirstPy (l : List Value) (id : Value) : List Value :=
  match l with
  | [] => []
  | x :: xs => if pyEq x id then xs else x :: removeFirstPy xs id

/-- `Index.remove`: remove one occurrence of `id` from the bucket for `v`. -/
def idxRemove (idx : Index) (v id : Value) : Index :=
  match idx with
  | [] => []
  | (k, b) :: rest => if pyEq k v then (k, removeFirstPy b id) :: rest else (k, b) :: idxRemove rest v id

/-! ### Python string library models -/

/-- Python `str.strip` whitespace set (ASCII fragment). -/
def isPyWs (c : Char) : Bool :=
  c == ' ' || c == '\t' || c == '\n' || c == '\r' || c == Char.ofNat 11 || c == Char.ofNat 12

/-- Strip leading and trailing whitespace from a character list. -/
def stripList (l : List Char) : List Char :=
  ((l.dropWhile isPyWs).reverse.dropWhile isPyWs).reverse

/-- Python `str.strip()`. -/
def pyStrip (s : String) : String := String.mk (stripList s.data)

/-- ASCII lower-casing of one character (models `str.lower` on ASCII input). -/
def lowerChar (c : Char) : Char :=
  if 'A' ≤ c && c ≤ 'Z' then Char.ofNat (c.toNat + 32) else c

/-- Python `str.lower()` (ASCII fragment). -/
def asciiLowerStr (s : String) : String := String.mk (s.data.map lowerChar)

/-- Parse a run of decimal digits allowing single underscores between digits
(Python's numeric-literal underscore rule), accumulating the value. -/
def digitsUndGo (acc : Nat) : List Char → Option Nat
  | [] => some acc
  | c :: rest =>
    if c.isDigit then digitsUndGo (acc * 10 + (c.toNat - 48)) rest
    else if c == '_' then
      match rest with
      | d :: rest' => if d.isDigit then digitsUndGo (acc * 10 + (d.toNat - 48)) rest' else none
      | [] => none
    else none

/-- A non-empty underscored digit run, as a natural number. -/
def digitsUnd : List Char → Option Nat
  | [] => none
  | c :: rest => if c.isDigit then digitsUndGo (c.toNat - 48) rest else none

/-- Like `digitsUnd` but also counts the digits (for fractional parts). -/
def digitsUndCntGo (acc cnt : Nat) : List Char → Option (Nat × Nat)
  | [] => some (acc, cnt)
  | c :: rest =>
    if c.isDigit then digitsUndCntGo (acc * 10 + (c.toNat - 48)) (cnt + 1) rest
    else if c == '_' then
      match rest with
      | d :: rest' =>
        if d.isDigit then digitsUndCntGo (acc * 10 + (d.toNat - 48)) (cnt + 1) rest' else none
      | [] => none
    else none

def digitsUndCnt : List Char → Option (Nat × Nat)
  | [] => none
  | c :: rest => if c.isDigit then digitsUndCntGo (c.toNat - 48) 1 rest else none

/-- Model of Python `int(s)` (base 10, ASCII): strip, optional sign, underscored
digit run. -/
def pyIntOfString (s : String) : Option Int :=
  match stripList s.data with
  | [] => none
  | c :: rest =>
    if c == '+' then (digitsUnd rest).map Int.ofNat
    else if c == '-' then (digitsUnd rest).map (fun n => -(n : Int))
    else (digitsUnd (c :: rest)).map Int.ofNat

/-- Split a character list at the first character satisfying `p`. -/
def splitFirst (p : Char → Bool) : List Char → Option (List Char × Char × List Char)
  | [] => none
  | c :: rest =>
    if p c then some ([], c, rest)
    else (splitFirst p rest).map (fun x => (c :: x.1, x.2.1, x.2.2))

/-- `10 ^ e` over the rationals for an integer exponent, computably. -/
def ratPow10 : Int → Rat
  | Int.ofNat n => (10 : Rat) ^ n
  | Int.negSucc n => 1 / (10 : Rat) ^ (n + 1)

/-- The mantissa of a Python float literal: `digits`, `digits.`, `digits.digits`
or `.digits` (with underscore runs). -/
def floatMantissa (m : List Char) : Option Rat :=
  match splitFirst (fun c => c == '.') m with
  | none => (digitsUnd m).map (fun n => (n : Rat))
  | some x =>
    let ip := x.1
    let fp := x.2.2
    if fp.contains '.' then none
    else
      match ip, fp with
      | [], [] => none
      | [], _ => (digitsUndCnt fp).map (fun vc => (vc.1 : Rat) / (10 : Rat) ^ vc.2)
      | _, [] => (digitsUnd ip).map (fun n => (n : Rat))
      | _, _ =>
        match digitsUnd ip, digitsUndCnt fp with
        | some n, some vc => some ((n : Rat) + (vc.1 : Rat) / (10 : Rat) ^ vc.2)
        | _, _ => none

/-- The exponent of a Python float literal: optional sign then digits. -/
def floatExponent (e : List Char) : Option Int :=
  match e with
  | [] => none
  | c :: rest =>
    if c == '+' then (digitsUnd rest).map Int.ofNat
    else if c == '-' then (digitsUnd rest).map (fun n => -(n : Int))
    else (digitsUnd e).map Int.ofNat

/-- The body of a Python float literal after the sign.  IEEE `inf`/`nan`
acceptance is modelled, their values collapsed to `0` in the rational model
(no claim observes them). -/
def pyFloatBody (l : List Char) : Option Rat :=
  let low := l.map lowerChar
  if low == "inf".data || low == "infinity".data || low == "nan".data then some 0
  else
    match splitFirst (fun c => c == 'e' || c == 'E') l with
    | none => floatMantissa l
    | some x =>
      match floatMantissa x.1, floatExponent x.2.2 with
      | some base, some ex => some (base * ratPow10 ex)
      | _, _ => none

/-- Model of Python `float(s)` (ASCII): strip, optional sign, float body. -/
def pyFloatOfString (s : String) : Option Rat :=
  match stripList s.data with
  | [] => none
  | c :: rest =>
    if c == '+' then pyFloatBody rest
    else if c == '-' then (pyFloatBody rest).map (fun q => -q)
    else pyFloatBody (c :: rest)

/-- Modelled approximation of `datetime.fromisoformat` acceptance:
`YYYY-MM-DD` optionally followed by a `T`/space separator and
`HH:MM[:SS[.digits]]`.  No claim in scope depends on the exact ISO grammar. -/
def isoDigits2 (a b : Char) : Option Nat :=
  if a.isDigit && b.isDigit then some ((a.toNat - 48) * 10 + (b.toNat - 48)) else none

def isoDateOK : List Char → Bool
  | [y1, y2, y3, y4, d1, m1, m2, d2, a1, a2] =>
    (y1.isDigit && y2.isDigit && y3.isDigit && y4.isDigit) &&
    d1 == '-' && d2 == '-' &&
    (match isoDigits2 m1 m2, isoDigits2 a1 a2 with
     | some mo, some da => decide (1 ≤ mo) && decide (mo ≤ 12) && decide (1 ≤ da) && decide (da ≤ 31)
     | _, _ => false)
  | _ => false

def isoTimeOK : List Char → Bool
  | [h1, h2, c1, m1, m2] =>
    c1 == ':' &&
    (match isoDigits2 h1 h2, isoDigits2 m1 m2 with
     | some h, some m => decide (h ≤ 23) && decide (m ≤ 59)
     | _, _ => false)
  | h1 :: h2 :: c1 :: m1 :: m2 :: c2 :: s1 :: s2 :: rest =>
    isoTimeOK [h1, h2, c1, m1, m2] && c2 == ':' &&
    (match isoDigits2 s1 s2 with
     | some s => decide (s ≤ 59)
     | none => false) &&
    (match rest with
     | [] => true
     | p :: frac => p == '.' && !frac.isEmpty && frac.all Char.isDigit)
  | _ => false

def isoParses (s : String) : Bool :=
  let l := s.data
  if l.length == 10 then isoDateOK l
  else
    match l.splitAt 10 with
    | (date, sep :: time) => isoDateOK date && (sep == 'T' || sep == ' ') && isoTimeOK time
    | (_, []) => false

/-- `datetime.now().isoformat()` is modelled by a fixed constant: no claim in
scope observes the ambient clock, only control flow. -/
def nowIso : String := "2026-01-01T00:00:00"

/-! ### DataType (engine.py `DataType.validate` / `DataType.convert`) -/

/-- Python `value in lst` (element-wise `==`). -/
def pyListContains (l : List Value) (v : Value) : Bool := l.any (fun x => pyEq x v)

/-- Truncation toward zero, as Python `int(float)`. -/
def ratTrunc (q : Rat) : Int :=
  if 0 ≤ q then Int.ofNat (q.num.natAbs / q.den) else -Int.ofNat (q.num.natAbs / q.den)

/-- `DataType.validate(value, data_type)`.  The `INTEGER`/`FLOAT` branches use
parseability (with exceptions caught), `TEXT` requires a string, `BOOLEAN`
accepts a bool or `0/1/"true"/"false"` under Python `==`, `DATETIME` requires
strings to parse as ISO datetimes; unknown type names validate nothing. -/
def validateVal (value : Value) (dataType : String) : Bool :=
  if value = vNull then true
  else if dataType = "INTEGER" then
    match value with
    | vInt _ => true
    | vBool _ => true
    | vFloat _ => true
    | vText s => (pyIntOfString s).isSome
    | vNull => true
  else if dataType = "TEXT" then
    match value with
    | vText _ => true
    | _ => false
  else if dataType = "FLOAT" then
    match value with
    | vInt _ => true
    | vBool _ => true
    | vFloat _ => true
    | vText s => (pyFloatOfString s).isSome
    | vNull => true
  else if dataType = "BOOLEAN" then
    match value with
    | vBool _ => true
    | _ => pyListContains [vInt 0, vInt 1, vText "true", vText "false"] value
  else if dataType = "DATETIME" then
    match value with
    | vText s => isoParses s
    | _ => true
  else false

/-- Python `str(value)` for the values `DataType.convert` can see.  After a
successful `TEXT` validation only strings reach this, so the non-string
branches are dead in the engine; the float branch is an approximation. -/
def pyStr : Value → String
  | vText s => s
  | vInt n => toString n
  | vBool b => cond b "True" "False"
  | vFloat q => toString q
  | vNull => "None"

/-- `DataType.convert(value, data_type)`.  `none` models an uncaught exception
(unreachable in the engine after `validate` succeeds, except for `DATETIME`
non-strings which stamp the modelled clock).  Unknown type names fall through
and return the value unchanged, as the Python function does. -/
def convertVal (value : Value) (dataType : String) : Option Value :=
  if value = vNull then some vNull
  else if dataType = "INTEGER" then
    match value with
    | vInt n => some (vInt n)
    | vBool b => some (vInt (cond b 1 0))
    | vFloat q => some (vInt (ratTrunc q))
    | vText s => (pyIntOfString s).map vInt
    | vNull => some vNull
  else if dataType = "TEXT" then some (vText (pyStr value))
  else if dataType = "FLOAT" then
    match value with
    | vInt n => some (vFloat (n : Rat))
    | vBool b => some (vFloat (cond b 1 0))
    | vFloat q => some (vFloat q)
    | vText s => (pyFloatOfString s).map vFloat
    | vNull => some vNull
  else if dataType = "BOOLEAN" then
    match value with
    | vBool b => some (vBool b)
    | _ => some (vBool (pyListContains [vInt 1, vText "true", vText "True"] value))
  else if dataType = "DATETIME" then
    match value with
    | vText s => some (vText s)
    | _ => some (vText nowIso)
  else some value

/-! ### Columns and tables -/

/-- `Column` (engine.py): name, type keyword and constraint flags. -/
structure Column where
  name : String
  data_type : String
  nullable : Bool := true
  primary_key : Bool := false
  unique : Bool := false
  auto_increment : Bool := false
  deriving DecidableEq, Repr

/-- Python dict assignment for the `self.columns` dict keyed by column name. -/
def colsDictInsert (d : List Column) (c : Column) : List Column :=
  match d with
  | [] => [c]
  | c' :: rest => if c'.name == c.name then c :: rest else c' :: colsDictInsert rest c

/-- `{col.name: col for col in columns}`. -/
def mkColumnsDict (cols : List Column) : List Column := cols.foldl colsDictInsert []

/-- Python dict assignment `self.indexes[name] = Index(name)` (fresh index). -/
def idxDictInsert (d : List (String × Index)) (nm : String) : List (String × Index) :=
  match d with
  | [] => [(nm, ([] : Index))]
  | (k, i) :: rest => if k == nm then (k, ([] : Index)) :: rest else (k, i) :: idxDictInsert rest nm

/-- `Table` (engine.py): name, column dict, row list, id counter, index dict. -/
structure Table where
  name : String
  columns : List Column
  rows : List Row
  next_id : Int
  indexes : List (String × Index)
  deriving DecidableEq, Repr

/-- `Table.__init__`: build the column dict and one fresh index per
primary-key/unique column. -/
def Table.new (nm : String) (cols : List Column) : Table :=
  { name := nm
    columns := mkColumnsDict cols
    rows := []
    next_id := 1
    indexes := (cols.filter fun c => c.primary_key || c.unique).foldl
      (fun d c => idxDictInsert d c.name) [] }

def findColumn (cols : List Column) (nm : String) : Option Column :=
  cols.find? (fun c => c.name == nm)

def idxFind (d : List (String × Index)) (nm : String) : Option Index :=
  (d.find? (fun p => p.1 == nm)).map Prod.snd

/-- `ratToValue` renders the auto-increment maximum back into a value: an
integral rational is a Python int here; Python's `max` element-typing beyond
that cannot survive the subsequent per-column `convert` and is collapsed. -/
def ratToValue (q : Rat) : Value := if q.den = 1 then vInt q.num else vFloat q

/-- Python `max(a, b)`, executably (`b` when `a < b`, else `a`). -/
def ratMax (a b : Rat) : Rat := if a.blt b then b else a

/-- `Table._get_next_auto_increment`: `max(0, values...) + 1`, folding over live
rows; a non-numeric stored value makes Python's `max` raise (`none`). -/
def autoIncMax (rows : List Row) (colName : String) : Option Rat :=
  rows.foldl
    (fun acc r =>
      match acc with
      | none => none
      | some m =>
        match pyDictGet r colName with
        | vNull => some m
        | v => match numOf v with
               | some q => some (ratMax m q)
               | none => none)
    (some 0)

/-- `q + 1` computed through `mkRat` (Batteries' `Rat.add` is irreducible and
would block kernel evaluation; this is proved equal to `q + 1` below). -/
def ratSuccOf (q : Rat) : Rat := mkRat (q.num + q.den) q.den

def autoIncNextVal (t : Table) (colName : String) : Option Value :=
  (autoIncMax t.rows colName).map (fun m => ratToValue (ratSuccOf m))

/-! ### Table.insert -/

/-- The value stored for one column by `Table.insert`, or `none` when the
insert raises (null constraint, validation, conversion, unique violation). -/
def insertColStep (t : Table) (data : Row) (col : Column) : Option Value :=
  let v0 := pyDictGet data col.name
  let v1? : Option Value := if col.auto_increment then autoIncNextVal t col.name else some v0
  match v1? with
  | none => none
  | some v1 =>
    if v1 = vNull && !col.nullable && !col.auto_increment then none
    else
      let v2? : Option Value :=
        if v1 = vNull then some v1
        else if validateVal v1 col.data_type then convertVal v1 col.data_type
        else none
      match v2? with
      | none => none
      | some v2 =>
        if (col.unique || col.primary_key) &&
           (match idxFind t.indexes col.name with
            | some idx => !(idxLookup idx v2).isEmpty
            | none => false)
        then none
        else some v2

def insertLoop (t : Table) (data : Row) : List Column → Row → Option Row
  | [], row => some row
  | col :: rest, row =>
    match insertColStep t data col with
    | none => none
    | some v => insertLoop t data rest (dictInsert row col.name v)

/-- `Table.insert`: build the row field by field (starting from the fresh
internal id), then add it to every index and append it.  `none` models the
raised `ValueError`, which leaves the table unchanged (all mutation happens
after the loop). -/
def Table.insert (t : Table) (data : Row) : Option (Table × Row) :=
  match insertLoop t data t.columns [("_id", vInt t.next_id)] with
  | none => none
  | some row =>
    let idxs := t.indexes.map (fun p =>
      if containsKey row p.1 then (p.1, idxAdd p.2 (pyDictGet row p.1) (vInt t.next_id)) else p)
    some ({ t with rows := t.rows ++ [row], next_id := t.next_id + 1, indexes := idxs }, row)

/-! ### Table.select -/

/-- The conjunctive equality filter (`row.get(col) != val` under Python `==`). -/
def rowMatches (w : Row) (r : Row) : Bool := w.all (fun kv => pyEq (pyDictGet r kv.1) kv.2)

/-- Projection: keep the requested fields that exist, then force `_id`
(`row['_id']` raises on a row with no internal id → `none`). -/
def projectRow (cs : List String) (r : Row) : Option Row :=
  let base := cs.foldl (fun acc c => if containsKey r c then dictInsert acc c (pyDictGet r c) else acc) []
  match rowGet r "_id" with
  | some idv => some (dictInsert base "_id" idv)
  | none => none

def projectAll (cs : List String) : List Row → Option (List Row)
  | [] => some []
  | r :: rest =>
    match projectRow cs r with
    | none => none
    | some pr => (projectAll cs rest).map (pr :: ·)

/-- The sort key for `order_by`: `row.get(col, '')`. -/
def sortKey (colName : String) (r : Row) : Value := pyDictGetD r colName (vText "")

/-- The strict before-relation used to sort result rows. -/
def rowSortLt (desc : Bool) (colName : String) (a b : Row) : Bool :=
  if desc then pyLtB (sortKey colName b) (sortKey colName a)
  else pyLtB (sortKey colName a) (sortKey colName b)

/-- Stable insertion of `x`: it goes before the first element not strictly
before it (so ties keep the original order). -/
def insRow (lt : Row → Row → Bool) (x : Row) : List Row → List Row
  | [] => [x]
  | h :: t => if lt h x then h :: insRow lt x t else x :: h :: t

/-- Stable sort, modelling Python `list.sort(key=..., reverse=...)`. -/
def sortRowsBy (lt : Row → Row → Bool) : List Row → List Row
  | [] => []
  | x :: xs => insRow lt x (sortRowsBy lt xs)

def compOK (a b : Value) : Bool := (pyLt a b).isSome

/-- All pairs of keys mutually comparable: the domain on which Python's sort
cannot raise `TypeError`.  (Python may avoid comparing some distant pairs; no
reachable table state distinguishes this.) -/
def pairwiseCompOK : List Value → Bool
  | [] => true
  | v :: vs => vs.all (compOK v) && pairwiseCompOK vs

/-- Python `xs[:l]` for an int `l` (negative slice bounds count from the end). -/
def pySlice (l : Int) (xs : List Row) : List Row :=
  if 0 ≤ l then xs.take l.toNat
  else xs.take (xs.length - (-l).toNat)

/-- `if limit: results = results[:limit]` — `None` and `0` are both falsy. -/
def applyLimit (lim : Option Int) (xs : List Row) : List Row :=
  match lim with
  | none => xs
  | some l => if l = 0 then xs else pySlice l xs

def dashChar : Char := '-'

/-- Python `s.startswith(c)` for a one-character needle. -/
def pyStartsWithChar (s : String) (c : Char) : Bool :=
  match s.data with
  | [] => false
  | d :: _ => d == c

/-- Python `s.endswith(c)` for a one-character needle. -/
def pyEndsWithChar (s : String) (c : Char) : Bool :=
  match s.data.getLast? with
  | some d => d == c
  | none => false

/-- The filter and projection stages of `Table.select` (everything before
ORDER BY).  `none` models the `KeyError` from projecting a row with no `_id`. -/
def selectBase (rows : List Row) (cols : Option (List String)) (w : Option Row) :
    Option (List Row) :=
  let filtered := rows.filter (fun r => match w with | none => true | some wc => rowMatches wc r)
  match cols with
  | some cs => if cs.isEmpty then some filtered else projectAll cs filtered
  | none => some filtered

/-- `order_by.startswith('-')`: the descending marker. -/
def obDesc (obName : String) : Bool := pyStartsWithChar obName dashChar

/-- The column named by `order_by`, with the marker stripped (`order_by[1:]`). -/
def obColName (obName : String) : String :=
  if obDesc obName then String.mk obName.data.tail else obName

/-- `Table.select` before the final LIMIT step: filter, project, stable sort.
`none` models a raised exception (unsortable keys, or projecting a row with no
`_id`).  An empty `order_by` string is falsy in Python and ignored. -/
def selectNoLimit (rows : List Row) (cols : Option (List String)) (w : Option Row)
    (ob : Option String) : Option (List Row) :=
  match selectBase rows cols w with
  | none => none
  | some res =>
    match ob with
    | none => some res
    | some obName =>
      if obName = "" then some res
      else if pairwiseCompOK (res.map (sortKey (obColName obName))) then
        some (sortRowsBy (rowSortLt (obDesc obName) (obColName obName)) res)
      else none

/-- `Table.select` as a function of the row list; the LIMIT slice is the final
step applied to the already-sorted result, as in the source. -/
def selectRows (rows : List Row) (cols : Option (List String)) (w : Option Row)
    (ob : Option String) (lim : Option Int) : Option (List Row) :=
  (selectNoLimit rows cols w ob).map (applyLimit lim)

def Table.select (t : Table) (cols : Option (List String)) (w : Option Row)
    (ob : Option String) (lim : Option Int) : Option (List Row) :=
  selectRows t.rows cols w ob lim

/-! ### Table.update -/

/-- Apply the `SET` fields to one row in `data` order, validating and
converting each; on the first invalid field the row is returned as mutated so
far with `false` (the raised `ValueError`). -/
def applyFields (cols : List Column) (data : Row) (row : Row) : Row × Bool :=
  match data with
  | [] => (row, true)
  | (k, v) :: rest =>
    match findColumn cols k with
    | none => applyFields cols rest row
    | some col =>
      if v = vNull then applyFields cols rest (dictInsert row k vNull)
      else if validateVal v col.data_type then
        match convertVal v col.data_type with
        | some v2 => applyFields cols rest (dictInsert row k v2)
        | none => (row, false)
      else (row, false)

/-- Run one index operation (`remove`/`add`) for a row across the index dict;
`false` models the `KeyError` from `row['_id']` on a row with no id, leaving
earlier entries already mutated. -/
def mapIdxRow (op : Index → Value → Value → Index) (idxs : List (String × Index)) (row : Row) :
    List (String × Index) × Bool :=
  match idxs with
  | [] => ([], true)
  | (c, idx) :: rest =>
    if containsKey row c then
      match rowGet row "_id" with
      | some idv =>
        let x := mapIdxRow op rest row
        ((c, op idx (pyDictGet row c) idv) :: x.1, x.2)
      | none => ((c, idx) :: rest, false)
    else
      let x := mapIdxRow op rest row
      ((c, idx) :: x.1, x.2)

/-- The row-by-row update loop.  For each matching row: remove its indexed
values, apply the fields, re-add.  A raised error (`none` count) returns the
table state exactly as mutated so far. -/
def updateGo (cols : List Column) (data w : Row) :
    List Row → List (String × Index) → List Row → Nat →
    List Row × List (String × Index) × Option Nat
  | [], idxs, acc, n => (acc.reverse, idxs, some n)
  | row :: rest, idxs, acc, n =>
    if rowMatches w row then
      let x1 := mapIdxRow idxRemove idxs row
      if !x1.2 then (acc.reverse ++ row :: rest, x1.1, none)
      else
        let x2 := applyFields cols data row
        if !x2.2 then (acc.reverse ++ x2.1 :: rest, x1.1, none)
        else
          let x3 := mapIdxRow idxAdd x1.1 x2.1
          if !x3.2 then (acc.reverse ++ x2.1 :: rest, x3.1, none)
          else updateGo cols data w rest x3.1 (x2.1 :: acc) (n + 1)
    else updateGo cols data w rest idxs (row :: acc) n

/-- `Table.update`: a `some` count is the success path; a `none` count is a
raised `ValueError`/`KeyError` with the table left in the mutated state. -/
def Table.update (t : Table) (data w : Row) : Table × Option Nat :=
  let x := updateGo t.columns data w t.rows t.indexes [] 0
  ({ t with rows := x.1, indexes := x.2.1 }, x.2.2)

/-! ### Table.delete -/

/-- Scan phase of `Table.delete`: remove each matching row's indexed values;
rows are only removed from storage after the whole scan (so an exception
leaves every row in place). -/
def deleteScan (w : Row) : List Row → List (String × Index) →
    List (String × Index) × Nat × Bool
  | [], idxs => (idxs, 0, true)
  | row :: rest, idxs =>
    if rowMatches w row then
      let x := mapIdxRow idxRemove idxs row
      if x.2 then
        let y := deleteScan w rest x.1
        (y.1, y.2.1 + 1, y.2.2)
      else (x.1, 0, false)
    else deleteScan w rest idxs

def Table.delete (t : Table) (w : Row) : Table × Option Nat :=
  let x := deleteScan w t.rows t.indexes
  if x.2.2 then
    ({ t with rows := t.rows.filter (fun r => !rowMatches w r), indexes := x.1 }, some x.2.1)
  else ({ t with indexes := x.1 }, none)

/-! ### Snapshot (to_dict / from_dict) -/

structure TableSnap where
  name : String
  columns : List Column
  rows : List Row
  next_id : Int
  deriving DecidableEq, Repr

def Table.toDict (t : Table) : TableSnap := ⟨t.name, t.columns, t.rows, t.next_id⟩

/-- Index rebuild in `from_dict`: replay every row's indexed values in row
order (`row['_id']` raising on an id-less row → `none`). -/
def rebuildIdx : List Row → List (String × Index) → Option (List (String × Index))
  | [], idxs => some idxs
  | row :: rest, idxs =>
    let x := mapIdxRow idxAdd idxs row
    if x.2 then rebuildIdx rest x.1 else none

def Table.fromDict (d : TableSnap) : Option Table :=
  let base := Table.new d.name d.columns
  match rebuildIdx d.rows base.indexes with
  | some idxs => some { base with rows := d.rows, next_id := d.next_id, indexes := idxs }
  | none => none

def Table.roundTrip (t : Table) : Option Table := Table.fromDict (Table.toDict t)

/-! ### Database.join -/

def dotChar : Char := '.'

/-- The f-string `f"{a}.{b}"`. -/
def dotted (a b : String) : String := String.mk (a.data ++ dotChar :: b.data)

/-- Merge one joined pair with namespaced keys, left row first. -/
def mergeRows (ln : String) (l : Row) (rn : String) (r : Row) : Row :=
  let m1 := l.foldl (fun acc kv => dictInsert acc (dotted ln kv.1) kv.2) []
  r.foldl (fun acc kv => dictInsert acc (dotted rn kv.1) kv.2) m1

/-- The nested-loop INNER join over two tables' rows; any other kind returns
the empty result, as in the source. -/
def joinTables (ln : String) (lt : Table) (rn : String) (rt : Table)
    (onL onR : String) (kind : String) : List Row :=
  if kind = "INNER" then
    lt.rows.flatMap (fun l =>
      (rt.rows.filter (fun r => pyEq (pyDictGet l onL) (pyDictGet r onR))).map
        (fun r => mergeRows ln l rn r))
  else []

/-- The table registry of `Database`.  The storage manager (file I/O) is an
external collaborator and does not influence any claim in scope. -/
structure Database where
  tables : List (String × Table)

def Database.getTable (db : Database) (nm : String) : Option Table :=
  (db.tables.find? (fun p => p.1 == nm)).map Prod.snd

/-- `Database.join`: look both tables up (a missing one raises → `none`) and
run the nested-loop join. -/
def Database.join (db : Database) (ltn rtn onL onR : String) (kind : String) :
    Option (List Row) :=
  match db.getTable ltn, db.getTable rtn with
  | some l, some r => some (joinTables ltn l rtn r onL onR kind)
  | _, _ => none

/-! ### Parser literal conversion (parser.py `SQLParser._convert_value`) -/

def quoteChar : Char := Char.ofNat 39

/-- `val[1:-1]`. -/
def sliceDropEnds (s : String) : String := String.mk ((s.data.drop 1).dropLast)

/-- `SQLParser._convert_value`, translated clause by clause from the source. -/
def convertValue (val : String) : Value :=
  let v := pyStrip val
  if pyStartsWithChar v quoteChar && pyEndsWithChar v quoteChar then vText (sliceDropEnds v)
  else if asciiLowerStr v == "null" then vNull
  else if asciiLowerStr v == "true" || asciiLowerStr v == "false" then
    vBool (asciiLowerStr v == "true")
  else if v.data.contains dotChar then
    match pyFloatOfString v with
    | some q => vFloat q
    | none => vText v
  else
    match pyIntOfString v with
    | some n => vInt n
    | none => vText v

/-! ### Reference-semantics model for `Table.insert`'s return value

The pure embedding cannot distinguish returning a copy from returning an
alias, so the final lines of `Table.insert`
(`self.rows.append(row); ...; return row`) are additionally modelled with an
explicit object heap: rows live in a heap, the table's row list holds
references, and `insert` appends the *same* reference it returns. -/

structure HeapState where
  heap : List Row
  rowRefs : List Nat
  deriving DecidableEq, Repr

/-- `self.rows.append(row); return row`: allocate the built dict once, store
its reference in the table, and return that same reference. -/
def heapInsertRow (st : HeapState) (row : Row) : HeapState × Nat :=
  ({ heap := st.heap ++ [row], rowRefs := st.rowRefs ++ [st.heap.length] }, st.heap.length)

/-- A caller-side mutation `ret[k] = v` through a row reference. -/
def heapWrite (st : HeapState) (ref : Nat) (k : String) (v : Value) : HeapState :=
  { st with heap := st.heap.set ref (dictInsert (st.heap.getD ref []) k v) }

/-- The rows the table sees (what `select` iterates over). -/
def heapRows (st : HeapState) : List Row := st.rowRefs.map (fun i => st.heap.getD i [])

/-! ### Concrete reachable states used by the claim theorems -/

def fallbackTable : Table := Table.new "fallback" []

def tabOf (o : Option (Table × Row)) : Table := o.elim fallbackTable Prod.fst

def colIdPk : Column := { name := "id", data_type := "INTEGER", primary_key := true }
def colXInt : Column := { name := "x", data_type := "INTEGER" }
def colYInt : Column := { name := "y", data_type := "INTEGER" }
def colNameNN : Column := { name := "name", data_type := "TEXT", nullable := false }
def colCAuto : Column := { name := "c", data_type := "INTEGER", auto_increment := true }
def colCUnique : Column := { name := "c", data_type := "INTEGER", unique := true }

def c1t0 : Table := Table.new "t" [colIdPk, colXInt, colYInt]
def c1t1 : Table := tabOf (c1t0.insert [("id", vInt 1), ("x", vInt 10), ("y", vInt 20)])

/-- C1: the claim says a `Table.update` in which some field fails validation
leaves the table's visible state unchanged.  The code violates this: on the
reachable table holding `{id:1, x:10, y:20}` (with a primary-key index on
`id`), `update({x:99, y:'bad'}, where={id:1})` raises on `y` — but only after
it has removed the row's index entries and applied `x:=99`, so the failed call
leaves the row partially updated and the `id=1` index entry dropped. -/
theorem claim1_update_failure_mutates_state :
    (c1t0.insert [("id", vInt 1), ("x", vInt 10), ("y", vInt 20)]).isSome = true ∧
    idxFind c1t1.indexes "id" = some [(vInt 1, [vInt 1])] ∧
    (c1t1.update [("x", vInt 99), ("y", vText "bad")] [("id", vInt 1)]).2 = none ∧
    (c1t1.update [("x", vInt 99), ("y", vText "bad")] [("id", vInt 1)]).1.rows =
      [[("_id", vInt 1), ("id", vInt 1), ("x", vInt 99), ("y", vInt 20)]] ∧
    idxFind (c1t1.update [("x", vInt 99), ("y", vText "bad")] [("id", vInt 1)]).1.indexes "id" =
      some [(vInt 1, [])] := by
  decide

def c3t0 : Table := Table.new "u" [colIdPk, colNameNN]
def c3t1 : Table := tabOf (c3t0.insert [("id", vInt 1), ("name", vText "A")])
def c3t2 : Table := tabOf (c3t1.insert [("id", vInt 2), ("name", vText "B")])

/-- C3: the claim says `Table.update` subjects each field to the same error
kinds as insert.  The code violates two of the three: on the reachable table
with rows `{id:1,name:'A'}`, `{id:2,name:'B'}` (`name` non-nullable, `id`
primary key), `update({name: null}, where={id:1})` succeeds and stores null in
the non-nullable column instead of raising a constraint violation, and
`update({id: 2}, where={id:1})` succeeds and duplicates the primary-key value
`2` instead of raising a unique violation.  (Only type validation is
performed, matching the third error kind.) -/
theorem claim3_update_missing_checks_eval :
    (c3t0.insert [("id", vInt 1), ("name", vText "A")]).isSome = true ∧
    (c3t1.insert [("id", vInt 2), ("name", vText "B")]).isSome = true ∧
    (c3t2.update [("name", vNull)] [("id", vInt 1)]).2 = some 1 ∧
    (rowGet ((c3t2.update [("name", vNull)] [("id", vInt 1)]).1.rows.getD 0 []) "name" =
      some vNull) ∧
    (c3t2.update [("id", vInt 2)] [("id", vInt 1)]).2 = some 1 ∧
    ((c3t2.update [("id", vInt 2)] [("id", vInt 1)]).1.rows.map (fun r => pyDictGet r "id") =
      [vInt 2, vInt 2]) := by
  decide

def c9row : Row := [("_id", vInt 1), ("id", vInt 1), ("name", vText "A")]
def c9st : HeapState × Nat := heapInsertRow ⟨[], []⟩ c9row

/-- C9: the claim says the mapping returned by a successful `Table.insert` is a
copy of the stored row.  The code returns the stored dict itself
(`self.rows.append(row); return row`), so mutating the returned mapping is
visible in subsequent selects.  In the reference model: inserting a row
returns reference `0`, which is exactly the reference the table stores, and
writing `name:='B'` through it changes the table's visible rows. -/
theorem claim9_insert_returns_alias_eval :
    ((Table.new "u" [colIdPk, colNameNN]).insert [("id", vInt 1), ("name", vText "A")]).isSome
      = true ∧
    c9st.2 ∈ c9st.1.rowRefs ∧
    heapRows c9st.1 = [c9row] ∧
    heapRows (heapWrite c9st.1 c9st.2 "name" (vText "B")) =
      [[("_id", vInt 1), ("id", vInt 1), ("name", vText "B")]] ∧
    heapRows (heapWrite c9st.1 c9st.2 "name" (vText "B")) ≠ heapRows c9st.1 := by
  decide

def c4a0 : Table := Table.new "a" [colCAuto]
def c4a1 : Table := tabOf (c4a0.insert [])
def c4a2 : Table := (c4a1.update [("c", vInt (-5))] [("_id", vInt 1)]).1

/-- C4 counterexample: the claim says every auto-increment insert stores
`1 + max` of the column over live rows.  On the reachable table whose single
live row holds `c = -5` (reached by insert then update), the next insert
stores `c = 1`, not `-5 + 1 = -4`: the code clamps the maximum at `0`
(`max_val = 0` start), which the claim's formula omits. -/
theorem claim4_counterexample :
    (c4a0.insert []).isSome = true ∧
    (c4a1.update [("c", vInt (-5))] [("_id", vInt 1)]).2 = some 1 ∧
    (c4a2.rows.map (fun r => pyDictGet r "c")) = [vInt (-5)] ∧
    (c4a2.insert []).map (fun p => rowGet p.2 "c") = some (some (vInt 1)) ∧
    vInt 1 ≠ vInt (-5 + 1) := by
  decide

def c5s0 : Table := Table.new "s" [colCUnique]
def c5s1 : Table := tabOf (c5s0.insert [("c", vInt 7)])
def c5s2 : Table := tabOf (c5s1.insert [("c", vInt 9)])
def c5s3 : Table := (c5s2.update [("c", vInt 9)] [("_id", vInt 1)]).1
def c5s4 : Table := (c5s3.roundTrip).getD fallbackTable

/-- C5 counterexample: the claim says restoring a snapshot yields identical
index lookups for every indexed column and value.  On the reachable table
obtained by inserting `c=7`, `c=9` and then updating row 1 to `c=9` (update
performs no uniqueness check), the live index bucket for `c=9` is `[2, 1]`
(row 1 was re-added last), while the rebuilt index after
`from_dict(to_dict(...))` replays rows in storage order and yields `[1, 2]` —
the lookups differ as sequences. -/
theorem claim5_counterexample :
    (c5s0.insert [("c", vInt 7)]).isSome = true ∧
    (c5s1.insert [("c", vInt 9)]).isSome = true ∧
    (c5s2.update [("c", vInt 9)] [("_id", vInt 1)]).2 = some 1 ∧
    c5s3.roundTrip = some c5s4 ∧
    (idxFind c5s3.indexes "c").map (fun idx => idxLookup idx (vInt 9)) =
      some [vInt 2, vInt 1] ∧
    (idxFind c5s4.indexes "c").map (fun idx => idxLookup idx (vInt 9)) =
      some [vInt 1, vInt 2] ∧
    ([vInt 2, vInt 1] : List Value) ≠ [vInt 1, vInt 2] := by
  decide

def c10b0 : Table := Table.new "b" [colCAuto]
def c10b1 : Table := tabOf (c10b0.insert [])
def c10b2 : Table := tabOf (c10b1.insert [])

/-- C10 counterexample: the claim says only positive limits truncate the
result.  On the reachable two-row table, `select` with `limit = -1` — a
non-positive limit — returns only the first row (`results[:-1]` drops the
last), so negative limits do truncate. -/
theorem claim10_counterexample :
    (c10b0.insert []).isSome = true ∧
    (c10b1.insert []).isSome = true ∧
    (c10b2.select none none none none).map List.length = some 2 ∧
    (c10b2.select none none none (some (-1))).map List.length = some 1 ∧
    c10b2.select none none none (some (-1)) ≠ c10b2.select none none none none := by
  decide

/-! ### C10 (amended) -/

/-- C10 amended: a zero limit is treated the same as no limit at all; positive
limits truncate to the first `limit` rows of the sorted result, and negative
limits also truncate, dropping `|limit|` rows from the end (Python slice
semantics). -/
theorem claim10_amended (t : Table) (cols : Option (List String)) (w : Option Row)
    (ob : Option String) (res : List Row) (h : t.select cols w ob none = some res) :
    t.select cols w ob (some 0) = some res ∧
    (∀ l : Int, 0 < l → t.select cols w ob (some l) = some (res.take l.toNat)) ∧
    (∀ l : Int, l < 0 →
      t.select cols w ob (some l) = some (res.take (res.length - (-l).toNat))) := by
  have hnl : selectNoLimit t.rows cols w ob = some res := by
    unfold Table.select selectRows at h
    cases hx : selectNoLimit t.rows cols w ob with
    | none => rw [hx] at h; exact Option.noConfusion h
    | some xs =>
      rw [hx, Option.map_some'] at h
      have hxx : applyLimit none xs = xs := rfl
      rw [hxx] at h
      exact h
  refine ⟨?_, ?_, ?_⟩
  · show (selectNoLimit t.rows cols w ob).map (applyLimit (some 0)) = some res
    rw [hnl]; simp [applyLimit]
  · intro l hl
    show (selectNoLimit t.rows cols w ob).map (applyLimit (some l)) = _
    rw [hnl]
    simp only [Option.map_some', applyLimit, pySlice]
    rw [if_neg (by omega), if_pos (by omega)]
  · intro l hl
    show (selectNoLimit t.rows cols w ob).map (applyLimit (some l)) = _
    rw [hnl]
    simp only [Option.map_some', applyLimit, pySlice]
    rw [if_neg (by omega), if_neg (by omega)]

def c10res : List Row := (c10b2.select none none none none).getD []

theorem claim10_amended_witness :
    c10b2.select none none none none = some c10res ∧
    c10b2.select none none none (some 0) = some c10res ∧
    (∀ l : Int, 0 < l → c10b2.select none none none (some l) = some (c10res.take l.toNat)) ∧
    (∀ l : Int, l < 0 → c10b2.select none none none (some l) =
      some (c10res.take (c10res.length - (-l).toNat))) :=
  ⟨rfl, (claim10_amended c10b2 none none none c10res rfl).1,
    (claim10_amended c10b2 none none none c10res rfl).2.1,
    (claim10_amended c10b2 none none none c10res rfl).2.2⟩

/-! ### C7: parser literal type inference

`specConvertValue` is written from the spec's words (the six-step precedence),
with independently implemented predicates; the claim is settled by proving it
agrees with the source translation `convertValue` on every input. -/

/-- Case-insensitive string equality, as the spec's words describe it. -/
def ciStrEq (s t : String) : Bool := s.data.map lowerChar == t.data.map lowerChar

/-- "single-quoted": first and last character are the quote. -/
def specQuoted (s : String) : Bool :=
  match s.data with
  | [] => false
  | c :: _ =>
    c == quoteChar &&
      (match s.data.getLast? with
       | some d => d == quoteChar
       | none => false)

/-- The spec's literal-inference precedence: (1) quoted → text stripped of the
quotes; (2) `null` → absence; (3) `true`/`false` → boolean; (4) contains a
decimal point → float parse else fall through to raw text; (5) integer parse;
(6) raw text. -/
def specConvertValue (val : String) : Value :=
  let v := pyStrip val
  if specQuoted v then vText (String.mk v.data.tail.dropLast)
  else if ciStrEq v "null" then vNull
  else if ciStrEq v "true" then vBool true
  else if ciStrEq v "false" then vBool false
  else if v.data.contains dotChar then
    match pyFloatOfString v with
    | some q => vFloat q
    | none => vText v
  else
    match pyIntOfString v with
    | some n => vInt n
    | none => vText v

theorem startsEnds_eq_specQuoted (s : String) :
    (pyStartsWithChar s quoteChar && pyEndsWithChar s quoteChar) = specQuoted s := by
  unfold pyStartsWithChar pyEndsWithChar specQuoted
  cases h : s.data with
  | nil => simp
  | cons c rest => simp

theorem mk_beq_eq (l : List Char) (t : String) :
    (String.mk l == t) = (l == t.data) := by
  cases t with
  | mk td =>
    rw [Bool.eq_iff_iff]
    simp [beq_iff_eq, String.ext_iff]

theorem lower_eq_ci (s t : String) (ht : t.data.map lowerChar = t.data) :
    (asciiLowerStr s == t) = ciStrEq s t := by
  unfold asciiLowerStr ciStrEq
  rw [mk_beq_eq, ht]

/-- C7: the parser infers literal types in exactly the claimed precedence:
quoted → text (quotes stripped); case-insensitive `null` → absence;
case-insensitive `true`/`false` → boolean; a token containing a decimal point
→ float if it parses, else raw text (so `1.0.0` is raw text, not an integer);
otherwise integer if it parses; otherwise raw text.  Stated as agreement of
the source translation with the spec-worded definition on every input,
together with the claim's own example. -/
theorem claim7_literal_inference :
    (∀ val : String, convertValue val = specConvertValue val) ∧
    convertValue "1.0.0" = vText "1.0.0" := by
  constructor
  · intro val
    simp only [convertValue, specConvertValue]
    rw [startsEnds_eq_specQuoted,
        lower_eq_ci _ "null" (by decide),
        lower_eq_ci _ "true" (by decide),
        lower_eq_ci _ "false" (by decide)]
    cases hq : specQuoted (pyStrip val) with
    | true => simp [hq, sliceDropEnds, List.drop_one]
    | false =>
      cases h1 : ciStrEq (pyStrip val) "null" with
      | true => simp [hq, h1]
      | false =>
        cases h2 : ciStrEq (pyStrip val) "true" with
        | true => simp [hq, h1, h2]
        | false =>
          cases h3 : ciStrEq (pyStrip val) "false" with
          | true => simp [hq, h1, h2, h3]
          | false => simp [hq, h1, h2, h3]
  · decide

/-! ### Association-list lemmas -/

theorem rowGet_dictInsert_same (r : Row) (k : String) (v : Value) :
    rowGet (dictInsert r k v) k = some v := by
  induction r with
  | nil => simp [dictInsert, rowGet]
  | cons p rest ih =>
    obtain ⟨k', v'⟩ := p
    by_cases h : k' = k
    · simp [dictInsert, rowGet, h]
    · simp only [dictInsert, rowGet, beq_iff_eq, if_neg h]
      exact ih

theorem rowGet_dictInsert_ne (r : Row) (k k' : String) (v : Value) (h : k ≠ k') :
    rowGet (dictInsert r k v) k' = rowGet r k' := by
  induction r with
  | nil => simp [dictInsert, rowGet, beq_iff_eq, h]
  | cons p rest ih =>
    obtain ⟨k'', v''⟩ := p
    by_cases h2 : k'' = k
    · subst h2
      simp [dictInsert, rowGet, beq_iff_eq, h]
    · simp only [dictInsert, rowGet, beq_iff_eq, if_neg h2]
      by_cases h3 : k'' = k'
      · simp [h3]
      · simp only [if_neg h3]
        exact ih

/-! ### Characterizing `insertLoop` -/

theorem insertLoop_rowGet_of_notin (t : Table) (d : Row) (cols : List Column)
    (r0 row : Row) (k : String) (hk : ∀ col ∈ cols, col.name ≠ k)
    (h : insertLoop t d cols r0 = some row) : rowGet row k = rowGet r0 k := by
  induction cols generalizing r0 with
  | nil =>
    simp only [insertLoop, Option.some.injEq] at h
    rw [← h]
  | cons col rest ih =>
    simp only [insertLoop] at h
    cases hs : insertColStep t d col with
    | none => rw [hs] at h; exact Option.noConfusion h
    | some v =>
      rw [hs] at h
      have := ih (dictInsert r0 col.name v) (fun c hc => hk c (List.mem_cons_of_mem _ hc)) h
      rw [this, rowGet_dictInsert_ne _ _ _ _ (hk col (List.mem_cons_self _ _))]

theorem insertLoop_step_mem (t : Table) (d : Row) (cols : List Column)
    (r0 row : Row) (c : Column) (hnodup : (cols.map Column.name).Nodup)
    (hc : c ∈ cols) (h : insertLoop t d cols r0 = some row) :
    ∃ v, insertColStep t d c = some v ∧ rowGet row c.name = some v := by
  induction cols generalizing r0 with
  | nil => cases hc
  | cons col rest ih =>
    simp only [insertLoop] at h
    cases hs : insertColStep t d col with
    | none => rw [hs] at h; exact Option.noConfusion h
    | some v =>
      rw [hs] at h
      rcases List.mem_cons.mp hc with rfl | hmem
      · refine ⟨v, hs, ?_⟩
        have hnot : ∀ col' ∈ rest, col'.name ≠ c.name := by
          intro col' hcol'
          have := (List.nodup_cons.mp hnodup).1
          intro heq
          exact this (heq ▸ List.mem_map_of_mem Column.name hcol')
        rw [insertLoop_rowGet_of_notin t d rest _ row c.name hnot h,
            rowGet_dictInsert_same]
      · exact ih (dictInsert r0 col.name v) (List.nodup_cons.mp hnodup).2 hmem h

/-! ### Rational bridges for the auto-increment computation -/

theorem ratMax_eq_max (a b : Rat) : ratMax a b = max a b := by
  unfold ratMax
  by_cases h : a < b
  · rw [if_pos (show a.blt b = true from h), max_eq_right h.le]
  · rw [if_neg (show ¬a.blt b = true from h), max_eq_left (not_lt.mp h)]

theorem ratSuccOf_eq (q : Rat) : ratSuccOf q = q + 1 := by
  unfold ratSuccOf
  rw [Rat.mkRat_eq_div]
  push_cast
  rw [add_div, Rat.num_div_den, div_self (by positivity : ((q.den : Rat)) ≠ 0)]

theorem ratToValue_intCast (n : Int) : ratToValue ((n : Int) : Rat) = vInt n := by
  unfold ratToValue
  rw [if_pos (Rat.den_intCast n), Rat.num_intCast]

/-- The integer values held by live rows in one column. -/
def intsOf (rows : List Row) (c : String) : List Int :=
  rows.filterMap (fun r => match pyDictGet r c with | vInt i => some i | _ => none)

/-- All values in a column are integers or nulls (decidably). -/
def isIntOrNull : Value → Bool
  | vInt _ => true
  | vNull => true
  | _ => false

theorem autoIncMax_int_go (c : String) (rows : List Row)
    (hvals : ∀ r ∈ rows, isIntOrNull (pyDictGet r c) = true) (m : Int) :
    rows.foldl
      (fun acc r =>
        match acc with
        | none => none
        | some x =>
          match pyDictGet r c with
          | vNull => some x
          | v => match numOf v with
                 | some q => some (ratMax x q)
                 | none => none)
      (some ((m : Int) : Rat)) =
      some (((intsOf rows c).foldl (fun a i => max a i) m : Int) : Rat) := by
  induction rows generalizing m with
  | nil => simp [intsOf]
  | cons r rest ih =>
    have hr := hvals r (List.mem_cons_self _ _)
    have hrest : ∀ r' ∈ rest, isIntOrNull (pyDictGet r' c) = true :=
      fun r' hr' => hvals r' (List.mem_cons_of_mem _ hr')
    cases hv : pyDictGet r c with
    | vInt i =>
      have : ratMax ((m : Int) : Rat) ((i : Int) : Rat) = ((max m i : Int) : Rat) := by
        rw [ratMax_eq_max, Int.cast_max]
      simp only [List.foldl_cons, hv, numOf, this, intsOf, List.filterMap_cons]
      exact ih hrest (max m i)
    | vNull =>
      simp only [List.foldl_cons, hv, intsOf, List.filterMap_cons]
      exact ih hrest m
    | vText s => rw [hv] at hr; exact Bool.noConfusion hr
    | vBool b => rw [hv] at hr; exact Bool.noConfusion hr
    | vFloat q => rw [hv] at hr; exact Bool.noConfusion hr

theorem autoIncMax_int (rows : List Row) (c : String)
    (hvals : ∀ r ∈ rows, isIntOrNull (pyDictGet r c) = true) :
    autoIncMax rows c = some (((intsOf rows c).foldl (fun a i => max a i) 0 : Int) : Rat) := by
  have := autoIncMax_int_go c rows hvals 0
  simpa [autoIncMax] using this

theorem insertColStep_autoInc_int (t : Table) (d : Row) (c : Column)
    (hai : c.auto_increment = true) (hdt : c.data_type = "INTEGER")
    (hvals : ∀ r ∈ t.rows, isIntOrNull (pyDictGet r c.name) = true)
    (v : Value) (h : insertColStep t d c = some v) :
    v = vInt ((intsOf t.rows c.name).foldl (fun a i => max a i) 0 + 1) := by
  have hnext : autoIncNextVal t c.name =
      some (vInt ((intsOf t.rows c.name).foldl (fun a i => max a i) 0 + 1)) := by
    unfold autoIncNextVal
    rw [autoIncMax_int t.rows c.name hvals, Option.map_some']
    rw [ratSuccOf_eq]
    have : (((intsOf t.rows c.name).foldl (fun a i => max a i) 0 : Int) : Rat) + 1 =
        (((intsOf t.rows c.name).foldl (fun a i => max a i) 0 + 1 : Int) : Rat) := by
      push_cast; ring
    rw [this, ratToValue_intCast]
  unfold insertColStep at h
  rw [hai, hdt, hnext] at h
  simp only [validateVal, convertVal, if_true, reduceCtorEq, Bool.not_true, Bool.and_false,
    Bool.false_eq_true, if_false, decide_False, if_pos rfl] at h
  split at h
  · exact Option.noConfusion h
  · injection h with h2
    exact h2.symm

def c4b2 : Table := tabOf (c4a1.insert [])
def c4b3 : Table := (c4b2.delete [("c", vInt 2)]).1

/-- C4 amended: for every successful `Table.insert` into a table whose
auto-increment column `c` is an INTEGER column with only integer (or null)
live values, the stored value of `c` equals 1 plus the maximum of 0 and the
values of `c` over the rows live immediately before the insert (so 1 when no
live row has a value, and also 1 when all live values are negative);
consequently, after deleting the row holding the current maximum, the next
insert can produce that same value again (second conjunct: the concrete
delete-and-reinsert scenario reproduces the value 2). -/
theorem claim4_amended :
    (∀ (t : Table) (c : Column) (d : Row) (t' : Table) (row : Row),
      (t.columns.map Column.name).Nodup →
      c ∈ t.columns → c.auto_increment = true → c.data_type = "INTEGER" →
      (∀ r ∈ t.rows, isIntOrNull (pyDictGet r c.name) = true) →
      t.insert d = some (t', row) →
      rowGet row c.name =
        some (vInt ((intsOf t.rows c.name).foldl (fun a i => max a i) 0 + 1))) ∧
    ((c4a1.insert []).isSome = true ∧
     (c4b2.rows.map (fun r => pyDictGet r "c")) = [vInt 1, vInt 2] ∧
     (c4b2.delete [("c", vInt 2)]).2 = some 1 ∧
     (c4b3.rows.map (fun r => pyDictGet r "c")) = [vInt 1] ∧
     (c4b3.insert []).map (fun p => rowGet p.2 "c") = some (some (vInt 2))) := by
  constructor
  · intro t c d t' row hnodup hc hai hdt hvals hins
    unfold Table.insert at hins
    cases hloop : insertLoop t d t.columns [("_id", vInt t.next_id)] with
    | none => rw [hloop] at hins; exact Option.noConfusion hins
    | some row0 =>
      rw [hloop] at hins
      have hrow : row = row0 := by
        injection hins with h1
        injection h1 with h2 h3
        exact h3.symm
      subst hrow
      obtain ⟨v, hstep, hget⟩ :=
        insertLoop_step_mem t d t.columns _ row c hnodup hc hloop
      rw [insertColStep_autoInc_int t d c hai hdt hvals v hstep] at hget
      exact hget
  · refine ⟨by decide, by decide, by decide, by decide, by decide⟩

def c4wT : Table := tabOf (c4a1.insert [])
def c4wRow : Row := (c4a1.insert []).elim [] Prod.snd

theorem claim4_amended_witness :
    rowGet c4wRow "c" =
      some (vInt ((intsOf c4a1.rows "c").foldl (fun a i => max a i) 0 + 1)) :=
  claim4_amended.1 c4a1 colCAuto [] c4wT c4wRow (by decide) (by decide) rfl rfl
    (by decide) rfl

/-! ### Comparison lemmas for the sort (claim C6) -/

theorem rat_lt_iff_blt (x y : Rat) : x < y ↔ x.blt y = true := Iff.rfl

theorem ratBlt_false_iff (x y : Rat) : x.blt y = false ↔ y ≤ x := by
  rw [← Bool.not_eq_true, ← rat_lt_iff_blt, not_lt]

theorem textLt_nil_right (l : List Char) : textLt l [] = false := by
  cases l <;> simp [textLt]

theorem textLt_asymm : ∀ a b : List Char, textLt a b = true → textLt b a = false := by
  intro a
  induction a with
  | nil => intro b _; exact textLt_nil_right b
  | cons c cs ih =>
    intro b h
    cases b with
    | nil => rw [textLt_nil_right] at h; exact Bool.noConfusion h
    | cons d ds =>
      simp only [textLt] at h ⊢
      by_cases h1 : c.toNat < d.toNat
      · rw [if_neg (by omega : ¬ d.toNat < c.toNat), if_pos h1]
      · rw [if_neg h1] at h
        by_cases h2 : d.toNat < c.toNat
        · rw [if_pos h2] at h; exact Bool.noConfusion h
        · rw [if_neg h2] at h
          rw [if_neg h2, if_neg h1]
          exact ih ds h

theorem textLt_negtrans : ∀ a b c : List Char,
    textLt b a = false → textLt c b = false → textLt c a = false := by
  intro a
  induction a with
  | nil => intro b c _ _; exact textLt_nil_right c
  | cons x xs ih =>
    intro b c h1 h2
    cases b with
    | nil => rw [show textLt [] (x :: xs) = true from rfl] at h1; exact Bool.noConfusion h1
    | cons y ys =>
      cases c with
      | nil => rw [show textLt [] (y :: ys) = true from rfl] at h2; exact Bool.noConfusion h2
      | cons z zs =>
        simp only [textLt] at h1 h2 ⊢
        by_cases hyx : y.toNat < x.toNat
        · rw [if_pos hyx] at h1; exact Bool.noConfusion h1
        · rw [if_neg hyx] at h1
          by_cases hzy : z.toNat < y.toNat
          · rw [if_pos hzy] at h2; exact Bool.noConfusion h2
          · rw [if_neg hzy] at h2
            by_cases hxy : x.toNat < y.toNat
            · rw [if_neg (by omega : ¬ z.toNat < x.toNat),
                  if_pos (by omega : x.toNat < z.toNat)]
            · rw [if_neg hxy] at h1
              by_cases hyz : y.toNat < z.toNat
              · rw [if_neg (by omega : ¬ z.toNat < x.toNat),
                    if_pos (by omega : x.toNat < z.toNat)]
              · rw [if_neg hyz] at h2
                rw [if_neg (by omega : ¬ z.toNat < x.toNat),
                    if_neg (by omega : ¬ x.toNat < z.toNat)]
                exact ih ys zs h1 h2

theorem pyLtB_irrefl (v : Value) : pyLtB v v = false := by
  cases v with
  | vInt n =>
    simp only [pyLtB, pyLt, numOf, Option.getD_some]
    rw [← Bool.not_eq_true, ← rat_lt_iff_blt]
    exact lt_irrefl _
  | vFloat q =>
    simp only [pyLtB, pyLt, numOf, Option.getD_some]
    rw [← Bool.not_eq_true, ← rat_lt_iff_blt]
    exact lt_irrefl _
  | vBool b =>
    simp only [pyLtB, pyLt, numOf, Option.getD_some]
    rw [← Bool.not_eq_true, ← rat_lt_iff_blt]
    exact lt_irrefl _
  | vText s =>
    simp only [pyLtB, pyLt, numOf, Option.getD_some]
    cases hx : textLt s.data s.data with
    | false => rfl
    | true => rw [textLt_asymm s.data s.data hx] at hx; exact Bool.noConfusion hx
  | vNull => rfl

theorem pyLt_num (a b : Value) (x y : Rat) (ha : numOf a = some x) (hb : numOf b = some y) :
    pyLt a b = some (x.blt y) := by
  cases a <;> cases b <;> simp_all [pyLt, numOf]

theorem pyLt_text (s t : String) : pyLt (vText s) (vText t) = some (textLt s.data t.data) := rfl

theorem pyLt_isSome_cases (a b : Value) (h : (pyLt a b).isSome = true) :
    ((numOf a).isSome = true ∧ (numOf b).isSome = true) ∨
    (∃ s t, a = vText s ∧ b = vText t) := by
  cases a <;> cases b <;> simp_all [pyLt, numOf]

/-- The empty text is a global weak minimum for `pyLtB`: nothing is strictly
below it (numbers are incomparable with it, no text precedes it). -/
theorem pyLtB_nothing_below_emptyText (v : Value) : pyLtB v (vText "") = false := by
  cases v <;> simp [pyLtB, pyLt, numOf, textLt_nil_right]

theorem pyLtB_isSome_of_true (a b : Value) (h : pyLtB a b = true) :
    (pyLt a b).isSome = true := by
  unfold pyLtB at h
  cases hp : pyLt a b with
  | none => rw [hp] at h; exact Bool.noConfusion h
  | some v => rfl

theorem pyLtB_asymm (a b : Value) (h : pyLtB a b = true) : pyLtB b a = false := by
  rcases pyLt_isSome_cases a b (pyLtB_isSome_of_true a b h) with ⟨hna, hnb⟩ | ⟨s, t, rfl, rfl⟩
  · obtain ⟨x, hx⟩ := Option.isSome_iff_exists.mp hna
    obtain ⟨y, hy⟩ := Option.isSome_iff_exists.mp hnb
    rw [pyLtB, pyLt_num a b x y hx hy, Option.getD_some] at h
    rw [pyLtB, pyLt_num b a y x hy hx, Option.getD_some, ratBlt_false_iff]
    exact le_of_lt ((rat_lt_iff_blt x y).mpr h)
  · rw [pyLtB, pyLt_text, Option.getD_some] at h
    rw [pyLtB, pyLt_text, Option.getD_some]
    exact textLt_asymm _ _ h

theorem pyLtB_negtrans_num (a b c : Value) (x y z : Rat)
    (ha : numOf a = some x) (hb : numOf b = some y) (hc : numOf c = some z)
    (h1 : pyLtB b a = false) (h2 : pyLtB c b = false) : pyLtB c a = false := by
  rw [pyLtB, pyLt_num b a y x hb ha, Option.getD_some, ratBlt_false_iff] at h1
  rw [pyLtB, pyLt_num c b z y hc hb, Option.getD_some, ratBlt_false_iff] at h2
  rw [pyLtB, pyLt_num c a z x hc ha, Option.getD_some, ratBlt_false_iff]
  exact le_trans h1 h2

theorem pyLtB_negtrans_text (s t u : String)
    (h1 : pyLtB (vText t) (vText s) = false) (h2 : pyLtB (vText u) (vText t) = false) :
    pyLtB (vText u) (vText s) = false := by
  rw [pyLtB, pyLt_text, Option.getD_some] at h1
  rw [pyLtB, pyLt_text, Option.getD_some] at h2
  rw [pyLtB, pyLt_text, Option.getD_some]
  exact textLt_negtrans s.data t.data u.data h1 h2

/-! ### Stable insertion sort lemmas -/

theorem mem_insRow (lt : Row → Row → Bool) (x y : Row) (l : List Row) :
    y ∈ insRow lt x l ↔ y = x ∨ y ∈ l := by
  induction l with
  | nil => simp [insRow]
  | cons h t ih =>
    by_cases hc : lt h x = true
    · simp only [insRow, if_pos hc, List.mem_cons, ih]
      tauto
    · simp only [insRow, if_neg hc, List.mem_cons]

theorem perm_insRow (lt : Row → Row → Bool) (x : Row) (l : List Row) :
    (insRow lt x l).Perm (x :: l) := by
  induction l with
  | nil => simp [insRow]
  | cons h t ih =>
    by_cases hc : lt h x = true
    · simp only [insRow, if_pos hc]
      exact (ih.cons h).trans (List.Perm.swap x h t)
    · simp [insRow, if_neg hc]

theorem perm_sortRowsBy (lt : Row → Row → Bool) (l : List Row) :
    (sortRowsBy lt l).Perm l := by
  induction l with
  | nil => simp [sortRowsBy]
  | cons x xs ih =>
    simp only [sortRowsBy]
    exact (perm_insRow lt x (sortRowsBy lt xs)).trans (ih.cons x)

theorem pairwise_insRow (lt : Row → Row → Bool) (x : Row) (l : List Row)
    (hasym : ∀ a b : Row, lt a b = true → lt b a = false)
    (hneg : ∀ a ∈ x :: l, ∀ b ∈ x :: l, ∀ c ∈ x :: l,
      lt b a = false → lt c b = false → lt c a = false)
    (hl : l.Pairwise (fun a b => lt b a = false)) :
    (insRow lt x l).Pairwise (fun a b => lt b a = false) := by
  induction l with
  | nil => simp [insRow]
  | cons h t ih =>
    rcases List.pairwise_cons.mp hl with ⟨hh, ht⟩
    by_cases hc : lt h x = true
    · simp only [insRow, if_pos hc]
      rw [List.pairwise_cons]
      refine ⟨?_, ?_⟩
      · intro y hy
        rcases (mem_insRow lt x y t).mp hy with rfl | hyt
        · exact hasym h y hc
        · exact hh y hyt
      · refine ih ?_ ht
        intro a ha b hb c hcc
        have f : ∀ y : Row, y ∈ x :: t → y ∈ x :: h :: t := by
          intro y hy
          rcases List.mem_cons.mp hy with rfl | hy'
          · exact List.mem_cons_self _ _
          · exact List.mem_cons_of_mem _ (List.mem_cons_of_mem _ hy')
        exact hneg a (f a ha) b (f b hb) c (f c hcc)
    · simp only [insRow, if_neg hc]
      have hcx : lt h x = false := by
        cases hv : lt h x with
        | false => rfl
        | true => exact absurd hv hc
      rw [List.pairwise_cons]
      refine ⟨?_, hl⟩
      intro y hy
      rcases List.mem_cons.mp hy with rfl | hyt
      · exact hcx
      · exact hneg x (List.mem_cons_self _ _) h
          (List.mem_cons_of_mem _ (List.mem_cons_self _ _)) y
          (List.mem_cons_of_mem _ (List.mem_cons_of_mem _ hyt))
          hcx (hh y hyt)

theorem pairwise_sortRowsBy (lt : Row → Row → Bool) (l : List Row)
    (hasym : ∀ a b : Row, lt a b = true → lt b a = false)
    (hneg : ∀ a ∈ l, ∀ b ∈ l, ∀ c ∈ l,
      lt b a = false → lt c b = false → lt c a = false) :
    (sortRowsBy lt l).Pairwise (fun a b => lt b a = false) := by
  induction l with
  | nil => simp [sortRowsBy]
  | cons x xs ih =>
    simp only [sortRowsBy]
    have hmemsort : ∀ y ∈ sortRowsBy lt xs, y ∈ xs :=
      fun y hy => (perm_sortRowsBy lt xs).mem_iff.mp hy
    refine pairwise_insRow lt x (sortRowsBy lt xs) hasym ?_ ?_
    · intro a ha b hb c hc
      have lift : ∀ y, y ∈ x :: sortRowsBy lt xs → y ∈ x :: xs := by
        intro y hy
        rcases List.mem_cons.mp hy with rfl | hy'
        · exact List.Mem.head _
        · exact List.mem_cons_of_mem _ (hmemsort y hy')
      exact hneg a (lift a ha) b (lift b hb) c (lift c hc)
    · exact ih (fun a ha b hb c hc =>
        hneg a (List.mem_cons_of_mem _ ha) b (List.mem_cons_of_mem _ hb)
          c (List.mem_cons_of_mem _ hc))

theorem filter_insRow (lt : Row → Row → Bool) (p : Row → Bool)
    (hpp : ∀ a b : Row, p a = true → p b = true → lt a b = false)
    (x : Row) (l : List Row) :
    (insRow lt x l).filter p = if p x then x :: l.filter p else l.filter p := by
  induction l with
  | nil =>
    simp only [insRow, List.filter]
    cases hx : p x <;> simp [hx]
  | cons h t ih =>
    by_cases hc : lt h x = true
    · simp only [insRow, if_pos hc]
      cases hx : p x with
      | true =>
        have hph : p h = false := by
          cases hph : p h with
          | false => rfl
          | true => rw [hpp h x hph hx] at hc; exact Bool.noConfusion hc
        simp [List.filter_cons, hph, ih, hx]
      | false =>
        simp [List.filter_cons, ih, hx]
    · simp only [insRow, if_neg hc]
      rw [List.filter_cons]

theorem filter_sortRowsBy (lt : Row → Row → Bool) (p : Row → Bool)
    (hpp : ∀ a b : Row, p a = true → p b = true → lt a b = false) (l : List Row) :
    (sortRowsBy lt l).filter p = l.filter p := by
  induction l with
  | nil => simp [sortRowsBy]
  | cons x xs ih =>
    simp only [sortRowsBy]
    rw [filter_insRow lt p hpp x (sortRowsBy lt xs), ih]
    cases hx : p x <;> simp [List.filter, hx]

/-! ### Classifying mutually comparable key lists -/

theorem pairwiseCompOK_cons (v : Value) (vs : List Value) (h : pairwiseCompOK (v :: vs) = true) :
    (∀ u ∈ vs, compOK v u = true) ∧ pairwiseCompOK vs = true := by
  unfold pairwiseCompOK at h
  rcases Bool.and_eq_true_iff.mp h with ⟨h1, h2⟩
  exact ⟨fun u hu => List.all_eq_true.mp h1 u hu, h2⟩

theorem comp_classify (vs : List Value) (h : pairwiseCompOK vs = true) :
    (∀ v ∈ vs, (numOf v).isSome = true) ∨ (∀ v ∈ vs, ∃ s, v = vText s) ∨ vs.length ≤ 1 := by
  cases vs with
  | nil => right; right; simp
  | cons v1 rest =>
    cases rest with
    | nil => right; right; simp
    | cons v2 rest2 =>
      obtain ⟨hall, _⟩ := pairwiseCompOK_cons v1 (v2 :: rest2) h
      have h12 : (pyLt v1 v2).isSome = true := hall v2 (List.mem_cons_self _ _)
      rcases pyLt_isSome_cases v1 v2 h12 with ⟨hn1, _⟩ | ⟨s, t, hv1, _⟩
      · left
        intro v hv
        rcases List.mem_cons.mp hv with rfl | hv'
        · exact hn1
        · have := hall v hv'
          rcases pyLt_isSome_cases v1 v this with ⟨_, hnv⟩ | ⟨s, t, hv1, _⟩
          · exact hnv
          · rw [hv1] at hn1; exact Bool.noConfusion hn1
      · right; left
        intro v hv
        rcases List.mem_cons.mp hv with rfl | hv'
        · exact ⟨s, hv1⟩
        · have := hall v hv'
          rcases pyLt_isSome_cases v1 v this with ⟨hn1, _⟩ | ⟨s', t', _, hvt⟩
          · rw [hv1] at hn1; exact Bool.noConfusion hn1
          · exact ⟨t', hvt⟩

theorem length_le_one_mem_eq {α : Type} (l : List α) (h : l.length ≤ 1)
    (a b : α) (ha : a ∈ l) (hb : b ∈ l) : a = b := by
  cases l with
  | nil => cases ha
  | cons x rest =>
    cases rest with
    | nil =>
      rw [List.mem_singleton] at ha hb
      rw [ha, hb]
    | cons y rest2 => simp at h

theorem rowGet_eq_none_of_not_containsKey (r : Row) (k : String)
    (h : containsKey r k = false) : rowGet r k = none := by
  induction r with
  | nil => rfl
  | cons p rest ih =>
    obtain ⟨k', v'⟩ := p
    unfold containsKey at h
    rcases Bool.or_eq_false_iff.mp h with ⟨h1, h2⟩
    unfold rowGet
    rw [h1]
    exact ih h2

theorem selectNoLimit_none_ob (rows : List Row) (cols : Option (List String)) (w : Option Row) :
    selectNoLimit rows cols w none = selectBase rows cols w := by
  unfold selectNoLimit
  cases hx : selectBase rows cols w <;> rfl

theorem selectNoLimit_some_ob (rows : List Row) (cols : Option (List String)) (w : Option Row)
    (obName : String) (base : List Row) (hb : selectBase rows cols w = some base) :
    selectNoLimit rows cols w (some obName) =
      if obName = "" then some base
      else if pairwiseCompOK (base.map (sortKey (obColName obName))) then
        some (sortRowsBy (rowSortLt (obDesc obName) (obColName obName)) base)
      else none := by
  unfold selectNoLimit
  rw [hb]

/-! ### C6: select with order_by -/

/-- C6: for every `Table.select` with a (truthy) `order_by`, the result is the
limit-truncation of a full sorted result `full`; `full` is a permutation of
the unsorted result `pre` (same filter and projection, original order), it is
sorted by the named column's key — descending exactly when the name carries
the `-` marker —, the sort is stable (rows with equal sort keys keep their
pre-sort relative order), rows lacking a value for the column take the key
`''`, the empty text, below which no value sorts, and `limit` truncates only
after sorting. -/
theorem claim6_select_order_by (t : Table) (cols : Option (List String)) (w : Option Row)
    (ob : String) (lim : Option Int) (res : List Row)
    (hne : ob ≠ "") (h : t.select cols w (some ob) lim = some res) :
    ∃ pre full,
      t.select cols w none none = some pre ∧
      t.select cols w (some ob) none = some full ∧
      res = applyLimit lim full ∧
      full.Perm pre ∧
      (if obDesc ob then
        full.Pairwise
          (fun a b => pyLtB (sortKey (obColName ob) a) (sortKey (obColName ob) b) = false)
       else
        full.Pairwise
          (fun a b => pyLtB (sortKey (obColName ob) b) (sortKey (obColName ob) a) = false)) ∧
      (∀ v : Value, full.filter (fun r => sortKey (obColName ob) r == v) =
        pre.filter (fun r => sortKey (obColName ob) r == v)) ∧
      (∀ r ∈ pre, containsKey r (obColName ob) = false → sortKey (obColName ob) r = vText "") ∧
      (∀ v : Value, pyLtB v (vText "") = false) := by
  unfold Table.select selectRows at h
  cases hnl : selectNoLimit t.rows cols w (some ob) with
  | none => rw [hnl] at h; exact Option.noConfusion h
  | some full =>
    rw [hnl, Option.map_some'] at h
    have hbase : ∃ base, selectBase t.rows cols w = some base := by
      unfold selectNoLimit at hnl
      cases hb : selectBase t.rows cols w with
      | none => rw [hb] at hnl; exact Option.noConfusion hnl
      | some base => exact ⟨base, rfl⟩
    obtain ⟨base, hb⟩ := hbase
    rw [selectNoLimit_some_ob t.rows cols w ob base hb, if_neg hne] at hnl
    by_cases hcomp : pairwiseCompOK (base.map (sortKey (obColName ob))) = true
    · rw [if_pos hcomp] at hnl
      have hfull : full = sortRowsBy (rowSortLt (obDesc ob) (obColName ob)) base := by
        injection hnl with h'
        exact h'.symm
      have hasym : ∀ a b : Row, rowSortLt (obDesc ob) (obColName ob) a b = true →
          rowSortLt (obDesc ob) (obColName ob) b a = false := by
        intro a b hab
        unfold rowSortLt at hab ⊢
        by_cases hd : obDesc ob = true
        · rw [if_pos hd] at hab ⊢; exact pyLtB_asymm _ _ hab
        · rw [if_neg hd] at hab ⊢; exact pyLtB_asymm _ _ hab
      have hkeymem : ∀ r ∈ base, sortKey (obColName ob) r ∈ base.map (sortKey (obColName ob)) :=
        fun r hr => List.mem_map_of_mem _ hr
      have hneg : ∀ a ∈ base, ∀ b ∈ base, ∀ c ∈ base,
          rowSortLt (obDesc ob) (obColName ob) b a = false →
          rowSortLt (obDesc ob) (obColName ob) c b = false →
          rowSortLt (obDesc ob) (obColName ob) c a = false := by
        intro a ha b hbm c hcm h1 h2
        rcases comp_classify _ hcomp with hnum | htext | hlen
        · obtain ⟨xa, hxa⟩ := Option.isSome_iff_exists.mp (hnum _ (hkeymem a ha))
          obtain ⟨xb, hxb⟩ := Option.isSome_iff_exists.mp (hnum _ (hkeymem b hbm))
          obtain ⟨xc, hxc⟩ := Option.isSome_iff_exists.mp (hnum _ (hkeymem c hcm))
          unfold rowSortLt at h1 h2 ⊢
          by_cases hd : obDesc ob = true
          · rw [if_pos hd] at h1 h2 ⊢
            exact pyLtB_negtrans_num _ _ _ xc xb xa hxc hxb hxa h2 h1
          · rw [if_neg hd] at h1 h2 ⊢
            exact pyLtB_negtrans_num _ _ _ xa xb xc hxa hxb hxc h1 h2
        · obtain ⟨sa, hsa⟩ := htext _ (hkeymem a ha)
          obtain ⟨sb, hsb⟩ := htext _ (hkeymem b hbm)
          obtain ⟨sc, hsc⟩ := htext _ (hkeymem c hcm)
          unfold rowSortLt at h1 h2 ⊢
          by_cases hd : obDesc ob = true
          · rw [if_pos hd] at h1 h2 ⊢
            rw [hsa, hsb] at h1
            rw [hsb, hsc] at h2
            rw [hsa, hsc]
            exact pyLtB_negtrans_text sc sb sa h2 h1
          · rw [if_neg hd] at h1 h2 ⊢
            rw [hsb, hsa] at h1
            rw [hsc, hsb] at h2
            rw [hsc, hsa]
            exact pyLtB_negtrans_text sa sb sc h1 h2
        · rw [List.length_map] at hlen
          have hac : c = a := length_le_one_mem_eq base hlen c a hcm ha
          have hbc : c = b := length_le_one_mem_eq base hlen c b hcm hbm
          rw [← hac] at h1 ⊢
          rw [← hbc] at h1
          exact h1
      refine ⟨base, full, ?_, ?_, (Option.some_inj.mp h).symm, ?_, ?_, ?_, ?_, ?_⟩
      · show (selectNoLimit t.rows cols w none).map (applyLimit none) = some base
        rw [selectNoLimit_none_ob, hb]
        rfl
      · show (selectNoLimit t.rows cols w (some ob)).map (applyLimit none) = some full
        rw [selectNoLimit_some_ob t.rows cols w ob base hb, if_neg hne, if_pos hcomp, hfull]
        rfl
      · rw [hfull]; exact perm_sortRowsBy _ base
      · rw [hfull]
        have hsorted := pairwise_sortRowsBy (rowSortLt (obDesc ob) (obColName ob)) base hasym hneg
        by_cases hd : obDesc ob = true
        · rw [if_pos hd]
          refine hsorted.imp ?_
          intro a b hab
          unfold rowSortLt at hab
          rw [if_pos hd] at hab
          exact hab
        · rw [if_neg hd]
          refine hsorted.imp ?_
          intro a b hab
          unfold rowSortLt at hab
          rw [if_neg hd] at hab
          exact hab
      · intro v
        rw [hfull]
        apply filter_sortRowsBy
        intro a b hpa hpb
        have hka : sortKey (obColName ob) a = v := by simpa [beq_iff_eq] using hpa
        have hkb : sortKey (obColName ob) b = v := by simpa [beq_iff_eq] using hpb
        unfold rowSortLt
        by_cases hd : obDesc ob = true
        · rw [if_pos hd, hka, hkb]; exact pyLtB_irrefl v
        · rw [if_neg hd, hka, hkb]; exact pyLtB_irrefl v
      · intro r _ hck
        unfold sortKey pyDictGetD
        rw [rowGet_eq_none_of_not_containsKey r (obColName ob) hck]
        rfl
      · exact pyLtB_nothing_below_emptyText
    · rw [if_neg hcomp] at hnl
      exact Option.noConfusion hnl

def colNameTx : Column := { name := "name", data_type := "TEXT" }
def c6t0 : Table := Table.new "w6" [colIdPk, colNameTx]
def c6t1 : Table := tabOf (c6t0.insert [("id", vInt 1), ("name", vText "b")])
def c6t2 : Table := tabOf (c6t1.insert [("id", vInt 2), ("name", vText "a")])
def c6t3 : Table := tabOf (c6t2.insert [("id", vInt 3), ("name", vText "b")])
def c6res : List Row := (c6t3.select none none (some "-name") (some 2)).getD []

theorem claim6_witness :
    ∃ pre full,
      c6t3.select none none none none = some pre ∧
      c6t3.select none none (some "-name") none = some full ∧
      c6res = applyLimit (some 2) full ∧
      full.Perm pre ∧
      (if obDesc "-name" then
        full.Pairwise
          (fun a b =>
            pyLtB (sortKey (obColName "-name") a) (sortKey (obColName "-name") b) = false)
       else
        full.Pairwise
          (fun a b =>
            pyLtB (sortKey (obColName "-name") b) (sortKey (obColName "-name") a) = false)) ∧
      (∀ v : Value, full.filter (fun r => sortKey (obColName "-name") r == v) =
        pre.filter (fun r => sortKey (obColName "-name") r == v)) ∧
      (∀ r ∈ pre, containsKey r (obColName "-name") = false →
        sortKey (obColName "-name") r = vText "") ∧
      (∀ v : Value, pyLtB v (vText "") = false) :=
  claim6_select_order_by c6t3 none none "-name" (some 2) c6res (by decide) rfl

/-! ### C8: the INNER join -/

/-- Table names produced by the parser contain no dot. -/
def noDotStr (s : String) : Bool := s.data.all (fun c => !(c == dotChar))

theorem append_dot_inj (as bs cs ds : List Char)
    (ha : ∀ c ∈ as, c ≠ dotChar) (hc : ∀ c ∈ cs, c ≠ dotChar)
    (h : as ++ dotChar :: bs = cs ++ dotChar :: ds) : as = cs ∧ bs = ds := by
  induction as generalizing cs with
  | nil =>
    cases cs with
    | nil => simp only [List.nil_append, List.cons.injEq] at h; exact ⟨rfl, h.2⟩
    | cons c cs' =>
      simp only [List.nil_append, List.cons_append, List.cons.injEq] at h
      exact absurd h.1.symm (hc c (List.mem_cons_self _ _))
  | cons a as' ih =>
    cases cs with
    | nil =>
      simp only [List.cons_append, List.nil_append, List.cons.injEq] at h
      exact absurd h.1 (ha a (List.mem_cons_self _ _))
    | cons c cs' =>
      simp only [List.cons_append, List.cons.injEq] at h
      obtain ⟨rfl, h2⟩ := h
      obtain ⟨h3, h4⟩ := ih cs' (fun x hx => ha x (List.mem_cons_of_mem _ hx))
        (fun x hx => hc x (List.mem_cons_of_mem _ hx)) h2
      exact ⟨by rw [h3], h4⟩

theorem noDot_chars (s : String) (h : noDotStr s = true) : ∀ c ∈ s.data, c ≠ dotChar := by
  intro c hcm
  have := List.all_eq_true.mp h c hcm
  simpa using this

theorem dotted_inj_keys (ln : String) (hl : noDotStr ln = true) (k k' : String)
    (h : dotted ln k = dotted ln k') : k = k' := by
  unfold dotted at h
  replace h := String.ext_iff.mp h
  obtain ⟨_, h2⟩ := append_dot_inj ln.data k.data ln.data k'.data
    (noDot_chars ln hl) (noDot_chars ln hl) h
  exact String.ext h2

theorem dotted_ne_names (ln rn : String) (hl : noDotStr ln = true) (hr : noDotStr rn = true)
    (hne : ln ≠ rn) (k k' : String) : dotted ln k ≠ dotted rn k' := by
  intro h
  unfold dotted at h
  replace h := String.ext_iff.mp h
  obtain ⟨h1, _⟩ := append_dot_inj ln.data k.data rn.data k'.data
    (noDot_chars ln hl) (noDot_chars rn hr) h
  exact hne (String.ext h1)

theorem containsKey_eq_isSome (r : Row) (k : String) :
    containsKey r k = (rowGet r k).isSome := by
  induction r with
  | nil => rfl
  | cons p rest ih =>
    obtain ⟨k', v'⟩ := p
    unfold containsKey rowGet
    by_cases h : k' = k
    · simp [h]
    · simp only [beq_iff_eq, h, if_false, Bool.false_or]
      rw [ih]
      simp [h]

theorem dictInsert_of_not_contains (acc : Row) (k : String) (v : Value)
    (h : containsKey acc k = false) : dictInsert acc k v = acc ++ [(k, v)] := by
  induction acc with
  | nil => rfl
  | cons p rest ih =>
    obtain ⟨k', v'⟩ := p
    unfold containsKey at h
    rcases Bool.or_eq_false_iff.mp h with ⟨h1, h2⟩
    unfold dictInsert
    rw [h1, ih h2]
    rfl

theorem containsKey_append (a b : Row) (k : String) :
    containsKey (a ++ b) k = (containsKey a k || containsKey b k) := by
  induction a with
  | nil => rfl
  | cons p rest ih =>
    obtain ⟨k', v'⟩ := p
    show (k' == k || containsKey (rest ++ b) k) = _
    rw [ih]
    show _ = ((k' == k || containsKey rest k) || containsKey b k)
    rw [Bool.or_assoc]

theorem foldl_dictInsert_fresh (kvs : List (String × Value)) (acc : Row)
    (hfresh : ∀ kv ∈ kvs, containsKey acc kv.1 = false)
    (hnodup : (kvs.map Prod.fst).Nodup) :
    kvs.foldl (fun a kv => dictInsert a kv.1 kv.2) acc = acc ++ kvs := by
  induction kvs generalizing acc with
  | nil => simp
  | cons kv rest ih =>
    rw [List.foldl_cons, dictInsert_of_not_contains acc kv.1 kv.2
      (hfresh kv (List.mem_cons_self _ _))]
    have hf2 : ∀ kv' ∈ rest, containsKey (acc ++ [(kv.1, kv.2)]) kv'.1 = false := by
      intro kv' hkv'
      rw [containsKey_append]
      apply Bool.or_eq_false_iff.mpr
      refine ⟨hfresh kv' (List.mem_cons_of_mem _ hkv'), ?_⟩
      show (kv.1 == kv'.1 || false) = false
      have hne : kv.1 ≠ kv'.1 := by
        intro he
        exact (List.nodup_cons.mp hnodup).1 (he ▸ List.mem_map_of_mem Prod.fst hkv')
      simp [hne]
    rw [ih (acc ++ [(kv.1, kv.2)]) hf2 (List.nodup_cons.mp hnodup).2]
    simp

theorem rowGet_map_dotted_other (ln rn : String) (hl : noDotStr ln = true)
    (hr : noDotStr rn = true) (hne : ln ≠ rn) (l : Row) (k0 : String) :
    rowGet (l.map (fun kv => (dotted ln kv.1, kv.2))) (dotted rn k0) = none := by
  induction l with
  | nil => rfl
  | cons p rest ih =>
    show (if dotted ln p.1 == dotted rn k0 then _ else _) = _
    rw [if_neg ?_]
    · exact ih
    · simp only [beq_iff_eq]
      exact dotted_ne_names ln rn hl hr hne p.1 k0

/-- Characterization of the merged record when both rows have distinct keys
and the table names are dot-free and distinct: it is exactly the two rows with
prefixed keys, left first. -/
theorem mergeRows_eq (ln rn : String) (l r : Row)
    (hl : noDotStr ln = true) (hr : noDotStr rn = true) (hne : ln ≠ rn)
    (hnl : (l.map Prod.fst).Nodup) (hnr : (r.map Prod.fst).Nodup) :
    mergeRows ln l rn r =
      l.map (fun kv => (dotted ln kv.1, kv.2)) ++ r.map (fun kv => (dotted rn kv.1, kv.2)) := by
  unfold mergeRows
  have e1 : l.foldl (fun acc kv => dictInsert acc (dotted ln kv.1) kv.2) [] =
      (l.map (fun kv => (dotted ln kv.1, kv.2))).foldl (fun a kv => dictInsert a kv.1 kv.2) [] := by
    rw [List.foldl_map]
  have e2 : ∀ acc : Row, r.foldl (fun acc kv => dictInsert acc (dotted rn kv.1) kv.2) acc =
      (r.map (fun kv => (dotted rn kv.1, kv.2))).foldl (fun a kv => dictInsert a kv.1 kv.2) acc := by
    intro acc
    rw [List.foldl_map]
  have hmapnodupL : ((l.map (fun kv => (dotted ln kv.1, kv.2))).map Prod.fst).Nodup := by
    rw [List.map_map]
    show (l.map (fun kv => dotted ln kv.1)).Nodup
    have : l.map (fun kv => dotted ln kv.1) = (l.map Prod.fst).map (dotted ln) := by
      rw [List.map_map]; rfl
    rw [this]
    exact hnl.map (fun a b hab => dotted_inj_keys ln hl a b hab)
  have hmapnodupR : ((r.map (fun kv => (dotted rn kv.1, kv.2))).map Prod.fst).Nodup := by
    rw [List.map_map]
    show (r.map (fun kv => dotted rn kv.1)).Nodup
    have : r.map (fun kv => dotted rn kv.1) = (r.map Prod.fst).map (dotted rn) := by
      rw [List.map_map]; rfl
    rw [this]
    exact hnr.map (fun a b hab => dotted_inj_keys rn hr a b hab)
  rw [e1, foldl_dictInsert_fresh _ [] (by intro kv _; rfl) hmapnodupL, List.nil_append]
  rw [e2, foldl_dictInsert_fresh _ _ ?_ hmapnodupR]
  intro kv hkv
  obtain ⟨kv0, _, rfl⟩ := List.mem_map.mp hkv
  rw [containsKey_eq_isSome, rowGet_map_dotted_other ln rn hl hr hne l kv0.1]
  rfl

theorem rowGet_append_of_some (a b : Row) (k : String) (v : Value)
    (h : rowGet a k = some v) : rowGet (a ++ b) k = some v := by
  induction a with
  | nil => exact Option.noConfusion h
  | cons p rest ih =>
    obtain ⟨k', v'⟩ := p
    replace h : (if (k' == k) = true then some v' else rowGet rest k) = some v := h
    rw [List.cons_append]
    show (if (k' == k) = true then some v' else rowGet (rest ++ b) k) = some v
    by_cases hk : k' == k
    · rw [if_pos hk] at h ⊢; exact h
    · rw [if_neg hk] at h ⊢; exact ih h

theorem rowGet_append_of_none (a b : Row) (k : String)
    (h : rowGet a k = none) : rowGet (a ++ b) k = rowGet b k := by
  induction a with
  | nil => rfl
  | cons p rest ih =>
    obtain ⟨k', v'⟩ := p
    replace h : (if (k' == k) = true then some v' else rowGet rest k) = none := h
    rw [List.cons_append]
    show (if (k' == k) = true then some v' else rowGet (rest ++ b) k) = rowGet b k
    by_cases hk : k' == k
    · rw [if_pos hk] at h; exact Option.noConfusion h
    · rw [if_neg hk] at h ⊢; exact ih h

theorem rowGet_map_dotted_same (ln : String) (hl : noDotStr ln = true) (l : Row) (k : String) :
    rowGet (l.map (fun kv => (dotted ln kv.1, kv.2))) (dotted ln k) = rowGet l k := by
  induction l with
  | nil => rfl
  | cons p rest ih =>
    obtain ⟨k0, v0⟩ := p
    rw [List.map_cons]
    show (if (dotted ln k0 == dotted ln k) = true then some v0
          else rowGet (rest.map (fun kv => (dotted ln kv.1, kv.2))) (dotted ln k)) =
        (if (k0 == k) = true then some v0 else rowGet rest k)
    by_cases hk : k0 = k
    · rw [if_pos (by simp [hk]), if_pos (by simp [hk])]
    · have hne2 : ¬ (dotted ln k0 == dotted ln k) = true := by
        simp only [beq_iff_eq]
        intro hd
        exact hk (dotted_inj_keys ln hl k0 k hd)
      rw [if_neg hne2, if_neg (by simp [hk]), ih]

/-- Splitting an equal pair of appends whose halves are separated by a
property. -/
theorem append_split {α : Type} (P : α → Prop) (as bs cs ds : List α)
    (hA : ∀ x ∈ as, P x) (hB : ∀ x ∈ bs, ¬P x) (hC : ∀ x ∈ cs, P x) (hD : ∀ x ∈ ds, ¬P x)
    (h : as ++ bs = cs ++ ds) : as = cs ∧ bs = ds := by
  induction as generalizing cs with
  | nil =>
    cases cs with
    | nil => exact ⟨rfl, h⟩
    | cons c cs' =>
      rw [List.nil_append] at h
      have hcb : c ∈ bs := h ▸ List.mem_cons_self c (cs' ++ ds)
      exact absurd (hC c (List.mem_cons_self _ _)) (hB c hcb)
  | cons a as' ih =>
    cases cs with
    | nil =>
      rw [List.nil_append] at h
      have had : a ∈ ds := h ▸ List.mem_cons_self a (as' ++ bs)
      exact absurd (hA a (List.mem_cons_self _ _)) (hD a had)
    | cons c cs' =>
      simp only [List.cons_append, List.cons.injEq] at h
      obtain ⟨rfl, h2⟩ := h
      obtain ⟨h3, h4⟩ := ih cs' (fun x hx => hA x (List.mem_cons_of_mem _ hx))
        (fun x hx => hC x (List.mem_cons_of_mem _ hx)) h2
      exact ⟨by rw [h3], h4⟩

theorem mergeRows_inj (ln rn : String) (l' r' l r : Row)
    (hl : noDotStr ln = true) (hr : noDotStr rn = true) (hne : ln ≠ rn)
    (hnl' : (l'.map Prod.fst).Nodup) (hnr' : (r'.map Prod.fst).Nodup)
    (hnl : (l.map Prod.fst).Nodup) (hnr : (r.map Prod.fst).Nodup)
    (h : mergeRows ln l' rn r' = mergeRows ln l rn r) : l' = l ∧ r' = r := by
  rw [mergeRows_eq ln rn l' r' hl hr hne hnl' hnr',
      mergeRows_eq ln rn l r hl hr hne hnl hnr] at h
  have key : ∀ z : Row, (∀ x ∈ z.map (fun kv => (dotted ln kv.1, kv.2)),
      ∃ k0, Prod.fst x = dotted ln k0) := by
    intro z x hx
    obtain ⟨kv0, _, rfl⟩ := List.mem_map.mp hx
    exact ⟨kv0.1, rfl⟩
  have keyR : ∀ z : Row, (∀ x ∈ z.map (fun kv => (dotted rn kv.1, kv.2)),
      ¬ ∃ k0, Prod.fst x = dotted ln k0) := by
    intro z x hx ⟨k0, hk0⟩
    obtain ⟨kv0, _, rfl⟩ := List.mem_map.mp hx
    exact dotted_ne_names rn ln hr hl (Ne.symm hne) kv0.1 k0 hk0
  obtain ⟨hL, hR⟩ := append_split (fun x => ∃ k0, Prod.fst x = dotted ln k0)
    _ _ _ _ (key l') (keyR r') (key l) (keyR r) h
  have hfinj : Function.Injective (fun kv : String × Value => (dotted ln kv.1, kv.2)) := by
    intro a b hab
    simp only [Prod.mk.injEq] at hab
    exact Prod.ext (dotted_inj_keys ln hl a.1 b.1 hab.1) hab.2
  have hginj : Function.Injective (fun kv : String × Value => (dotted rn kv.1, kv.2)) := by
    intro a b hab
    simp only [Prod.mk.injEq] at hab
    exact Prod.ext (dotted_inj_keys rn hr a.1 b.1 hab.1) hab.2
  exact ⟨(List.map_injective_iff.mpr hfinj) hL, (List.map_injective_iff.mpr hginj) hR⟩

theorem countP_flatMapList {α β : Type} (f : α → List β) (p : β → Bool) (l : List α) :
    (l.flatMap f).countP p = (l.map (fun a => (f a).countP p)).sum := by
  induction l with
  | nil => rfl
  | cons a rest ih =>
    rw [List.flatMap_cons, List.countP_append, List.map_cons, List.sum_cons, ih]

theorem sum_map_ite_one {α : Type} [DecidableEq α] (l : List α) (x : α)
    (hnd : l.Nodup) (hx : x ∈ l) :
    (l.map (fun a => if a = x then 1 else 0)).sum = 1 := by
  induction l with
  | nil => cases hx
  | cons a rest ih =>
    rw [List.map_cons, List.sum_cons]
    rcases List.mem_cons.mp hx with rfl | hmem
    · have hz : (rest.map (fun b => if b = x then 1 else 0)).sum = 0 := by
        rw [List.sum_eq_zero]
        intro y hy
        obtain ⟨b, hb, rfl⟩ := List.mem_map.mp hy
        have hne : b ≠ x := fun he => (List.nodup_cons.mp hnd).1 (he ▸ hb)
        simp [hne]
      simp [hz]
    · have ha : a ≠ x := fun he => (List.nodup_cons.mp hnd).1 (he ▸ hmem)
      rw [ih (List.nodup_cons.mp hnd).2 hmem]
      simp [ha]

theorem countP_beq_eq_one {α : Type} [BEq α] [LawfulBEq α] [DecidableEq α] (l : List α) (x : α)
    (hnd : l.Nodup) (hx : x ∈ l) : l.countP (fun y => y == x) = 1 := by
  induction l with
  | nil => cases hx
  | cons a rest ih =>
    rw [List.countP_cons]
    rcases List.mem_cons.mp hx with rfl | hmem
    · have hrest : rest.countP (fun y => y == x) = 0 := by
        apply List.countP_eq_zero.mpr
        intro y hy
        simp only [beq_iff_eq]
        intro he
        exact (List.nodup_cons.mp hnd).1 (he ▸ hy)
      simp [hrest]
    · have ha : ¬ (a == x) = true := by
        simp only [beq_iff_eq]
        intro he
        exact (List.nodup_cons.mp hnd).1 (he ▸ hmem)
      rw [ih (List.nodup_cons.mp hnd).2 hmem]
      simp [ha]

def usersT : Table :=
  { name := "users", columns := [], rows := [[("id", vInt 1)]], next_id := 1, indexes := [] }
def tasksT : Table :=
  { name := "tasks", columns := [],
    rows := [[("user_id", vInt 1), ("title", vText "A")]], next_id := 1, indexes := [] }
def c8db : Database := ⟨[("users", usersT), ("tasks", tasksT)]⟩

/-- C8: for every `Database.join` of two (distinct, dot-free-named) tables
with kind INNER, and every left row and right row whose values at the join
columns are Python-equal, the result contains exactly one record equal to
their merge, and every key of that merge is namespaced as
`<table>.<column>`; in particular, joining `users=[{id:1}]` with
`tasks=[{user_id:1,title:'A'}]` on `id=user_id` yields exactly the single
record `{users.id:1, tasks.user_id:1, tasks.title:'A'}`.  (The
distinct-rows/distinct-keys hypotheses hold for every table the engine
builds: internal ids make rows pairwise distinct and dict keys unique.) -/
theorem claim8_inner_join :
    (∀ (db : Database) (ln rn onL onR : String) (lt rt : Table) (l r : Row) (res : List Row),
      db.getTable ln = some lt → db.getTable rn = some rt →
      db.join ln rn onL onR "INNER" = some res →
      noDotStr ln = true → noDotStr rn = true → ln ≠ rn →
      (∀ row ∈ lt.rows, (row.map Prod.fst).Nodup) →
      (∀ row ∈ rt.rows, (row.map Prod.fst).Nodup) →
      lt.rows.Nodup → rt.rows.Nodup →
      l ∈ lt.rows → r ∈ rt.rows →
      pyEq (pyDictGet l onL) (pyDictGet r onR) = true →
      res.countP (fun x => x == mergeRows ln l rn r) = 1 ∧
      (∀ kv ∈ mergeRows ln l rn r, ∃ k0 : String,
        kv.1 = dotted ln k0 ∨ kv.1 = dotted rn k0)) ∧
    c8db.join "users" "tasks" "id" "user_id" "INNER" =
      some [[("users.id", vInt 1), ("tasks.user_id", vInt 1), ("tasks.title", vText "A")]] := by
  constructor
  · intro db ln rn onL onR lt rt l r res hlt hrt hjoin hnoL hnoR hnames hkeysL hkeysR
      hndL hndR hlm hrm hmatch
    have hres : res = lt.rows.flatMap (fun l' =>
        ((rt.rows.filter (fun r' => pyEq (pyDictGet l' onL) (pyDictGet r' onR))).map
          (fun r' => mergeRows ln l' rn r'))) := by
      unfold Database.join at hjoin
      rw [hlt, hrt] at hjoin
      have := Option.some_inj.mp hjoin
      rw [← this]
      unfold joinTables
      rw [if_pos rfl]
    have hnkl : (l.map Prod.fst).Nodup := hkeysL l hlm
    have hnkr : (r.map Prod.fst).Nodup := hkeysR r hrm
    constructor
    · rw [hres, countP_flatMapList]
      have hinner : lt.rows.map (fun l' =>
          ((rt.rows.filter (fun r' => pyEq (pyDictGet l' onL) (pyDictGet r' onR))).map
            (fun r' => mergeRows ln l' rn r')).countP (fun x => x == mergeRows ln l rn r)) =
          lt.rows.map (fun l' => if l' = l then 1 else 0) := by
        apply List.map_congr_left
        intro l' hl'm
        rw [List.countP_map]
        by_cases he : l' = l
        · subst he
          rw [if_pos rfl]
          have hcongr : ∀ r' ∈ rt.rows.filter
              (fun r' => pyEq (pyDictGet l' onL) (pyDictGet r' onR)),
              (((fun x => x == mergeRows ln l' rn r) ∘ fun r' => mergeRows ln l' rn r') r' = true ↔
                (r' == r) = true) := by
            intro r' hr'
            have hr'm : r' ∈ rt.rows := List.mem_of_mem_filter hr'
            have heq : (mergeRows ln l' rn r' == mergeRows ln l' rn r) = (r' == r) := by
              by_cases hrr : r' = r
              · rw [hrr]
                simp
              · have hmm : mergeRows ln l' rn r' ≠ mergeRows ln l' rn r := by
                  intro hmeq
                  exact hrr (mergeRows_inj ln rn l' r' l' r hnoL hnoR hnames
                    (hkeysL l' hl'm) (hkeysR r' hr'm) (hkeysL l' hl'm) hnkr hmeq).2
                simp [hmm, hrr]
            show (mergeRows ln l' rn r' == mergeRows ln l' rn r) = true ↔ (r' == r) = true
            rw [heq]
          rw [List.countP_congr hcongr]
          apply countP_beq_eq_one _ _ (hndR.filter _)
          exact List.mem_filter.mpr ⟨hrm, hmatch⟩
        · rw [if_neg he]
          apply List.countP_eq_zero.mpr
          intro r' hr'
          have hr'm : r' ∈ rt.rows := List.mem_of_mem_filter hr'
          intro hx
          have hmeq : mergeRows ln l' rn r' = mergeRows ln l rn r := by
            simpa [beq_iff_eq] using hx
          exact he (mergeRows_inj ln rn l' r' l r hnoL hnoR hnames
            (hkeysL l' hl'm) (hkeysR r' hr'm) hnkl hnkr hmeq).1
      rw [hinner]
      exact sum_map_ite_one lt.rows l hndL hlm
    · intro kv hkv
      rw [mergeRows_eq ln rn l r hnoL hnoR hnames hnkl hnkr] at hkv
      rcases List.mem_append.mp hkv with hmem | hmem
      · obtain ⟨kv0, _, rfl⟩ := List.mem_map.mp hmem
        exact ⟨kv0.1, Or.inl rfl⟩
      · obtain ⟨kv0, _, rfl⟩ := List.mem_map.mp hmem
        exact ⟨kv0.1, Or.inr rfl⟩
  · decide

def c8l : Row := [("id", vInt 1)]
def c8r : Row := [("user_id", vInt 1), ("title", vText "A")]
def c8res : List Row := (c8db.join "users" "tasks" "id" "user_id" "INNER").getD []

theorem claim8_witness :
    c8res.countP (fun x => x == mergeRows "users" c8l "tasks" c8r) = 1 ∧
    (∀ kv ∈ mergeRows "users" c8l "tasks" c8r, ∃ k0 : String,
      kv.1 = dotted "users" k0 ∨ kv.1 = dotted "tasks" k0) :=
  claim8_inner_join.1 c8db "users" "tasks" "id" "user_id" usersT tasksT c8l c8r c8res
    rfl rfl rfl (by decide) (by decide) (by decide) (by decide) (by decide)
    (by decide) (by decide) (by decide) (by decide) (by decide)

/-! ### The index / live-row correspondence (claims C2 and C5) -/

/-- The internal ids of the rows of a row list, in row order. -/
def rowsIds (rs : List Row) : List Value := rs.filterMap (fun r => rowGet r "_id")

/-- The ids of the rows whose value in column `c` is Python-equal to `v`,
in row order. -/
def liveIds (rs : List Row) (c : String) (v : Value) : List Value :=
  rs.filterMap (fun r => if pyEq (pyDictGet r c) v then rowGet r "_id" else none)

/-- Every bucket of every index holds exactly (up to order) the ids of the
currently live rows holding a Python-equal value in that column: the
consistency property claimed by C2. -/
def IndexesMatchLive (t : Table) : Prop :=
  ∀ p ∈ t.indexes, ∀ v : Value, (idxLookup p.2 v).Perm (liveIds t.rows p.1 v)

/-- Well-formedness of a reachable table: internal ids are integers below the
id counter and pairwise distinct, column names are pairwise distinct and never
`_id`, the index dict has exactly one entry per primary-key/unique column,
every live row has a slot for every indexed column, and the indexes match the
live rows. -/
structure WF (t : Table) : Prop where
  idform : ∀ r ∈ t.rows, ∃ i : Int, rowGet r "_id" = some (vInt i) ∧ i < t.next_id
  idnodup : (rowsIds t.rows).Nodup
  colnames : (t.columns.map Column.name).Nodup
  noid : ∀ col ∈ t.columns, col.name ≠ "_id"
  idxnames : t.indexes.map Prod.fst =
    (t.columns.filter (fun c => c.primary_key || c.unique)).map Column.name
  cover : ∀ r ∈ t.rows, ∀ p ∈ t.indexes, containsKey r p.1 = true
  live : IndexesMatchLive t

/-! #### `pyEq` is an equivalence (on the values that occur as index keys) -/

theorem pyEq_refl (v : Value) : pyEq v v = true := by
  cases v <;> simp [pyEq, numOf]

theorem pyEq_true_symm (a b : Value) (h : pyEq a b = true) : pyEq b a = true := by
  cases a <;> cases b <;> simp only [pyEq, numOf] at h ⊢ <;>
    first
      | exact h
      | exact Bool.noConfusion h
      | (rw [beq_iff_eq] at h ⊢; exact h.symm)

theorem pyEq_trans (a b c : Value) (h1 : pyEq a b = true) (h2 : pyEq b c = true) :
    pyEq a c = true := by
  cases a <;> cases b <;> cases c <;> simp only [pyEq, numOf] at h1 h2 ⊢ <;>
    first
      | exact h1
      | exact h2
      | exact Bool.noConfusion h1
      | exact Bool.noConfusion h2
      | (rw [beq_iff_eq] at h1 h2 ⊢; exact h1.trans h2)

theorem pyEq_not_right (k a v : Value) (hka : pyEq k a = true) (hkv : pyEq k v = false) :
    pyEq a v = false := by
  cases hx : pyEq a v with
  | false => rfl
  | true => exact absurd (pyEq_trans k a v hka hx) (by simp [hkv])

theorem pyEq_not_left (k a v : Value) (hka : pyEq k a = false) (hkv : pyEq k v = true) :
    pyEq a v = false := by
  cases hx : pyEq a v with
  | false => rfl
  | true =>
    have hc : pyEq k a = true :=
      pyEq_true_symm a k (pyEq_trans a v k hx (pyEq_true_symm k v hkv))
    rw [hc] at hka
    exact Bool.noConfusion hka

/-- On integer ids, Python `==` coincides with structural equality. -/
theorem pyEq_vInt (m n : Int) : pyEq (vInt m) (vInt n) = (vInt m == vInt n) := by
  by_cases h : m = n
  · subst h
    simp [pyEq, numOf]
  · have h1 : pyEq (vInt m) (vInt n) = false := by
      simp only [pyEq, numOf]
      simp only [beq_eq_false_iff_ne, ne_eq, Rat.intCast_inj]
      exact h
    have h2 : (vInt m == vInt n) = false := by
      simp [h]
    rw [h1, h2]

/-! #### `rowsIds` / `liveIds` structure lemmas -/

theorem rowsIds_append (xs ys : List Row) :
    rowsIds (xs ++ ys) = rowsIds xs ++ rowsIds ys := by
  simp [rowsIds, List.filterMap_append]

theorem liveIds_append (xs ys : List Row) (c : String) (v : Value) :
    liveIds (xs ++ ys) c v = liveIds xs c v ++ liveIds ys c v := by
  simp [liveIds, List.filterMap_append]

theorem rowsIds_cons (r : Row) (rs : List Row) :
    rowsIds (r :: rs) = (rowGet r "_id").toList ++ rowsIds rs := by
  cases h : rowGet r "_id" <;> simp [rowsIds, List.filterMap_cons, h]

theorem liveIds_cons (r : Row) (rs : List Row) (c : String) (v : Value) :
    liveIds (r :: rs) c v =
      (if pyEq (pyDictGet r c) v = true then (rowGet r "_id").toList else []) ++
        liveIds rs c v := by
  by_cases hg : pyEq (pyDictGet r c) v = true <;>
    cases h : rowGet r "_id" <;> simp [liveIds, List.filterMap_cons, hg, h]

theorem mem_rowsIds (rs : List Row) (x : Value) :
    x ∈ rowsIds rs ↔ ∃ r ∈ rs, rowGet r "_id" = some x := by
  simp [rowsIds, List.mem_filterMap]

theorem mem_liveIds (rs : List Row) (c : String) (v x : Value) :
    x ∈ liveIds rs c v ↔
      ∃ r ∈ rs, pyEq (pyDictGet r c) v = true ∧ rowGet r "_id" = some x := by
  simp only [liveIds, List.mem_filterMap]
  constructor
  · rintro ⟨r, hr, hfx⟩
    by_cases hg : pyEq (pyDictGet r c) v = true
    · rw [if_pos hg] at hfx
      exact ⟨r, hr, hg, hfx⟩
    · rw [if_neg hg] at hfx
      exact Option.noConfusion hfx
  · rintro ⟨r, hr, hg, hx⟩
    refine ⟨r, hr, ?_⟩
    rw [if_pos hg]
    exact hx

theorem liveIds_subset (rs : List Row) (c : String) (v x : Value)
    (h : x ∈ liveIds rs c v) : x ∈ rowsIds rs := by
  obtain ⟨r, hr, _, hx⟩ := (mem_liveIds rs c v x).mp h
  exact (mem_rowsIds rs x).mpr ⟨r, hr, hx⟩

theorem liveIds_elem_vInt (rs : List Row) (c : String) (v x : Value)
    (hform : ∀ r ∈ rs, ∃ j : Int, rowGet r "_id" = some (vInt j))
    (hx : x ∈ liveIds rs c v) : ∃ j : Int, x = vInt j := by
  obtain ⟨r, hr, _, hid⟩ := (mem_liveIds rs c v x).mp hx
  obtain ⟨j, hj⟩ := hform r hr
  rw [hid] at hj
  exact ⟨j, Option.some.inj hj⟩

/-! #### How one `Index.add` / `Index.remove` changes every lookup -/

theorem lookup_idxAdd (idx : Index) (a id v : Value) :
    idxLookup (idxAdd idx a id) v =
      if pyEq a v = true then idxLookup idx v ++ [id] else idxLookup idx v := by
  induction idx with
  | nil => by_cases h : pyEq a v = true <;> simp [idxAdd, idxLookup, h]
  | cons p rest ih =>
    obtain ⟨k, b⟩ := p
    by_cases hka : pyEq k a = true <;> by_cases hkv : pyEq k v = true
    · have hav : pyEq a v = true := pyEq_trans a k v (pyEq_true_symm k a hka) hkv
      simp [idxAdd, idxLookup, hka, hkv, hav]
    · have hav : pyEq a v = false :=
        pyEq_not_right k a v hka (Bool.of_not_eq_true hkv)
      simp [idxAdd, idxLookup, hka, hkv, hav]
    · have hav : pyEq a v = false :=
        pyEq_not_left k a v (Bool.of_not_eq_true hka) hkv
      simp [idxAdd, idxLookup, hka, hkv, hav]
    · simp [idxAdd, idxLookup, hka, hkv, ih]

theorem lookup_idxRemove (idx : Index) (a id v : Value) :
    idxLookup (idxRemove idx a id) v =
      if pyEq a v = true then removeFirstPy (idxLookup idx v) id
      else idxLookup idx v := by
  induction idx with
  | nil => by_cases h : pyEq a v = true <;> simp [idxRemove, idxLookup, removeFirstPy, h]
  | cons p rest ih =>
    obtain ⟨k, b⟩ := p
    by_cases hka : pyEq k a = true <;> by_cases hkv : pyEq k v = true
    · have hav : pyEq a v = true := pyEq_trans a k v (pyEq_true_symm k a hka) hkv
      simp [idxRemove, idxLookup, hka, hkv, hav]
    · have hav : pyEq a v = false :=
        pyEq_not_right k a v hka (Bool.of_not_eq_true hkv)
      simp [idxRemove, idxLookup, hka, hkv, hav]
    · have hav : pyEq a v = false :=
        pyEq_not_left k a v (Bool.of_not_eq_true hka) hkv
      simp [idxRemove, idxLookup, hka, hkv, hav]
    · simp [idxRemove, idxLookup, hka, hkv, ih]

/-! #### Bucket surgery at the permutation level -/

theorem perm_ins_mid {α : Type} (L LA LB : List α) (I : α) (h : L.Perm (LA ++ LB)) :
    (L ++ [I]).Perm (LA ++ I :: LB) :=
  ((h.append_right [I]).trans (List.perm_append_singleton I (LA ++ LB))).trans
    List.perm_middle.symm

theorem removeFirstPy_eq_erase (l : List Value) (I : Value)
    (h : ∀ x ∈ l, pyEq x I = (x == I)) : removeFirstPy l I = l.erase I := by
  induction l with
  | nil => rfl
  | cons x xs ih =>
    show (if pyEq x I = true then xs else x :: removeFirstPy xs I) = _
    rw [List.erase_cons, h x (List.mem_cons_self x xs)]
    by_cases hx : (x == I) = true
    · rw [if_pos hx, if_pos hx]
    · rw [if_neg hx, if_neg hx, ih (fun y hy => h y (List.mem_cons_of_mem x hy))]

theorem perm_del_mid (L LA LB : List Value) (I : Value) (hIA : I ∉ LA)
    (helems : ∀ x ∈ L, pyEq x I = (x == I)) (h : L.Perm (LA ++ I :: LB)) :
    (removeFirstPy L I).Perm (LA ++ LB) := by
  rw [removeFirstPy_eq_erase L I helems]
  have h2 := h.erase I
  rw [List.erase_append_right _ hIA, List.erase_cons_head] at h2
  exact h2

/-- In a list of rows with pairwise-distinct ids, the id determines the row. -/
theorem row_id_unique (l : List Row) (hnd : (rowsIds l).Nodup) (r r2 : Row)
    (x : Value) (hr : r ∈ l) (hr2 : r2 ∈ l) (h1 : rowGet r "_id" = some x)
    (h2 : rowGet r2 "_id" = some x) : r = r2 := by
  induction l with
  | nil => cases hr
  | cons a rest ih =>
    rw [rowsIds_cons] at hnd
    have hofr : (rowsIds rest).Nodup := hnd.of_append_right
    rcases List.mem_cons.mp hr with he | hmr
    · rcases List.mem_cons.mp hr2 with he2 | hmr2
      · rw [he, he2]
      · exfalso
        rw [he] at h1
        rw [h1] at hnd
        simp only [Option.toList_some, List.singleton_append, List.nodup_cons] at hnd
        exact hnd.1 ((mem_rowsIds rest x).mpr ⟨r2, hmr2, h2⟩)
    · rcases List.mem_cons.mp hr2 with he2 | hmr2
      · exfalso
        rw [he2] at h2
        rw [h2] at hnd
        simp only [Option.toList_some, List.singleton_append, List.nodup_cons] at hnd
        exact hnd.1 ((mem_rowsIds rest x).mpr ⟨r, hmr, h1⟩)
      · exact ih hofr hmr hmr2

/-! #### `mapIdxRow` on a row that has an id -/

theorem mapIdxRow_id (op : Index → Value → Value → Index) (row : Row) (idv : Value)
    (hid : rowGet row "_id" = some idv) (idxs : List (String × Index)) :
    mapIdxRow op idxs row =
      (idxs.map (fun p =>
        if containsKey row p.1 = true then (p.1, op p.2 (pyDictGet row p.1) idv) else p),
       true) := by
  induction idxs with
  | nil => rfl
  | cons p rest ih =>
    obtain ⟨c, idx⟩ := p
    by_cases hc : containsKey row c = true
    · simp [mapIdxRow, hc, hid, ih]
    · simp [mapIdxRow, hc, hid, ih]

theorem map_fst_transform {β : Type} (f : (String × β) → (String × β))
    (l : List (String × β)) (h : ∀ p ∈ l, (f p).1 = p.1) :
    (l.map f).map Prod.fst = l.map Prod.fst := by
  induction l with
  | nil => rfl
  | cons p rest ih =>
    rw [List.map_cons, List.map_cons, List.map_cons, h p (List.mem_cons_self p rest),
      ih (fun q hq => h q (List.mem_cons_of_mem p hq))]

/-! #### `dictInsert` / `applyFields` frame lemmas -/

theorem containsKey_dictInsert (r : Row) (k q : String) (v : Value) :
    containsKey (dictInsert r k v) q = ((k == q) || containsKey r q) := by
  induction r with
  | nil => simp [dictInsert, containsKey]
  | cons p rest ih =>
    obtain ⟨k1, v1⟩ := p
    by_cases h : k1 = k
    · subst h
      rw [show dictInsert ((k1, v1) :: rest) k1 v = (k1, v) :: rest by
        simp [dictInsert]]
      show (k1 == q || containsKey rest q) = (k1 == q || (k1 == q || containsKey rest q))
      cases hq : (k1 == q) <;> simp
    · have hb : (k1 == k) = false := by simp [h]
      simp only [dictInsert, hb, Bool.false_eq_true, if_false]
      show (k1 == q || containsKey (dictInsert rest k v) q) = _
      rw [ih]
      show _ = (k == q || (k1 == q || containsKey rest q))
      cases (k1 == q) <;> cases (k == q) <;> simp

theorem findColumn_name (cols : List Column) (k : String) (col : Column)
    (h : findColumn cols k = some col) : col.name = k ∧ col ∈ cols := by
  unfold findColumn at h
  refine ⟨?_, List.mem_of_find?_eq_some h⟩
  have := List.find?_some h
  simpa [beq_iff_eq] using this

theorem applyFields_rowGet (cols : List Column) (data : Row) (k : String)
    (hk : ∀ col ∈ cols, col.name ≠ k) :
    ∀ row, rowGet (applyFields cols data row).1 k = rowGet row k := by
  induction data with
  | nil => intro row; rfl
  | cons kv rest ih =>
    intro row
    obtain ⟨k0, v0⟩ := kv
    cases hf : findColumn cols k0 with
    | none =>
      simp only [applyFields, hf]
      exact ih row
    | some col =>
      have hk0 : k0 ≠ k := by
        obtain ⟨hn, hm⟩ := findColumn_name cols k0 col hf
        rw [← hn]
        exact hk col hm
      by_cases hv : v0 = vNull
      · simp only [applyFields, hf, if_pos hv]
        rw [ih (dictInsert row k0 vNull), rowGet_dictInsert_ne _ _ _ _ hk0]
      · simp only [applyFields, hf, if_neg hv]
        by_cases hval : validateVal v0 col.data_type = true
        · rw [if_pos hval]
          cases hcv : convertVal v0 col.data_type with
          | some v2 =>
            simp only [hcv]
            rw [ih (dictInsert row k0 v2), rowGet_dictInsert_ne _ _ _ _ hk0]
          | none => simp only [hcv]
        · rw [if_neg hval]

theorem applyFields_containsKey (cols : List Column) (data : Row) (k : String) :
    ∀ row, containsKey row k = true →
      containsKey (applyFields cols data row).1 k = true := by
  induction data with
  | nil => intro row h; exact h
  | cons kv rest ih =>
    intro row h
    obtain ⟨k0, v0⟩ := kv
    cases hf : findColumn cols k0 with
    | none =>
      simp only [applyFields, hf]
      exact ih row h
    | some col =>
      by_cases hv : v0 = vNull
      · simp only [applyFields, hf, if_pos hv]
        exact ih _ (by rw [containsKey_dictInsert, h]; simp)
      · simp only [applyFields, hf, if_neg hv]
        by_cases hval : validateVal v0 col.data_type = true
        · rw [if_pos hval]
          cases hcv : convertVal v0 col.data_type with
          | some v2 =>
            simp only [hcv]
            exact ih _ (by rw [containsKey_dictInsert, h]; simp)
          | none =>
            simp only [hcv]
            exact h
        · rw [if_neg hval]
          exact h

theorem mapIdxRow_fst (op : Index → Value → Value → Index) (row : Row) (idv : Value)
    (hid : rowGet row "_id" = some idv) (idxs : List (String × Index)) :
    ((mapIdxRow op idxs row).1).map Prod.fst = idxs.map Prod.fst := by
  rw [mapIdxRow_id op row idv hid idxs]
  exact map_fst_transform _ idxs
    (fun p hp => by by_cases h : containsKey row p.1 = true <;> simp [h])

/-! #### How one row's index traffic moves the live correspondence -/

/-- Adding a fresh row's values (insert, and each step of the rebuild):
afterwards every bucket matches the live rows extended by that row. -/
theorem live_add_row (idxs : List (String × Index)) (rs : List Row) (row : Row)
    (I : Value) (hid : rowGet row "_id" = some I)
    (hcov : ∀ p ∈ idxs, containsKey row p.1 = true)
    (hlive : ∀ p ∈ idxs, ∀ v, (idxLookup p.2 v).Perm (liveIds rs p.1 v)) :
    ∀ p ∈ (mapIdxRow idxAdd idxs row).1, ∀ v,
      (idxLookup p.2 v).Perm (liveIds (rs ++ [row]) p.1 v) := by
  rw [mapIdxRow_id idxAdd row I hid idxs]
  intro p hp v
  obtain ⟨q, hq, rfl⟩ := List.mem_map.mp hp
  rw [if_pos (hcov q hq)]
  show (idxLookup (idxAdd q.2 (pyDictGet row q.1) I) v).Perm
    (liveIds (rs ++ [row]) q.1 v)
  rw [lookup_idxAdd, liveIds_append, liveIds_cons, hid]
  by_cases hbv : pyEq (pyDictGet row q.1) v = true
  · rw [if_pos hbv, if_pos hbv]
    show (idxLookup q.2 v ++ [I]).Perm (liveIds rs q.1 v ++ [I])
    exact (hlive q hq v).append_right [I]
  · rw [if_neg hbv, if_neg hbv]
    rw [show ([] : List Value) ++ liveIds ([] : List Row) q.1 v = [] from rfl,
      List.append_nil]
    exact hlive q hq v

/-- Removing a live row's values (delete, and the first half of update):
afterwards every bucket matches the live rows without that row. -/
theorem live_remove_row (idxs : List (String × Index)) (A B : List Row) (row : Row)
    (i : Int) (hid : rowGet row "_id" = some (vInt i))
    (hform : ∀ r ∈ A ++ row :: B, ∃ j : Int, rowGet r "_id" = some (vInt j))
    (hnd : (rowsIds (A ++ row :: B)).Nodup)
    (hcov : ∀ p ∈ idxs, containsKey row p.1 = true)
    (hlive : ∀ p ∈ idxs, ∀ v, (idxLookup p.2 v).Perm (liveIds (A ++ row :: B) p.1 v)) :
    ∀ p ∈ (mapIdxRow idxRemove idxs row).1, ∀ v,
      (idxLookup p.2 v).Perm (liveIds (A ++ B) p.1 v) := by
  have hsplit : rowsIds (A ++ row :: B) = rowsIds A ++ vInt i :: rowsIds B := by
    rw [rowsIds_append, rowsIds_cons, hid]
    rfl
  rw [hsplit] at hnd
  have hIA : (vInt i) ∉ rowsIds A := by
    intro hmem
    exact (List.nodup_append.mp hnd).2.2 hmem (List.mem_cons_self _ _)
  rw [mapIdxRow_id idxRemove row (vInt i) hid idxs]
  intro p hp v
  obtain ⟨q, hq, rfl⟩ := List.mem_map.mp hp
  rw [if_pos (hcov q hq)]
  show (idxLookup (idxRemove q.2 (pyDictGet row q.1) (vInt i)) v).Perm
    (liveIds (A ++ B) q.1 v)
  have helems : ∀ x ∈ idxLookup q.2 v, pyEq x (vInt i) = (x == vInt i) := by
    intro x hx
    obtain ⟨j, rfl⟩ := liveIds_elem_vInt (A ++ row :: B) q.1 v x hform
      ((hlive q hq v).mem_iff.mp hx)
    exact pyEq_vInt j i
  have hL := hlive q hq v
  rw [liveIds_append, liveIds_cons, hid] at hL
  rw [lookup_idxRemove, liveIds_append]
  by_cases ha : pyEq (pyDictGet row q.1) v = true
  · rw [if_pos ha]
    rw [if_pos ha] at hL
    have hL2 : (idxLookup q.2 v).Perm
        (liveIds A q.1 v ++ vInt i :: liveIds B q.1 v) := hL
    exact perm_del_mid _ _ _ _
      (fun hmem => hIA (liveIds_subset A q.1 v _ hmem)) helems hL2
  · rw [if_neg ha]
    rw [if_neg ha] at hL
    exact hL

/-- Replacing a live row in place (one update step: remove the old values,
re-add the new ones under the same id). -/
theorem live_replace_row (idxs : List (String × Index)) (A B : List Row)
    (row row2 : Row) (i : Int)
    (hid : rowGet row "_id" = some (vInt i))
    (hid2 : rowGet row2 "_id" = some (vInt i))
    (hform : ∀ r ∈ A ++ row :: B, ∃ j : Int, rowGet r "_id" = some (vInt j))
    (hnd : (rowsIds (A ++ row :: B)).Nodup)
    (hcov : ∀ p ∈ idxs, containsKey row p.1 = true)
    (hcov2 : ∀ p ∈ idxs, containsKey row2 p.1 = true)
    (hlive : ∀ p ∈ idxs, ∀ v, (idxLookup p.2 v).Perm (liveIds (A ++ row :: B) p.1 v)) :
    ∀ p ∈ (mapIdxRow idxAdd (mapIdxRow idxRemove idxs row).1 row2).1, ∀ v,
      (idxLookup p.2 v).Perm (liveIds (A ++ row2 :: B) p.1 v) := by
  have hsplit : rowsIds (A ++ row :: B) = rowsIds A ++ vInt i :: rowsIds B := by
    rw [rowsIds_append, rowsIds_cons, hid]
    rfl
  rw [hsplit] at hnd
  have hIA : (vInt i) ∉ rowsIds A := by
    intro hmem
    exact (List.nodup_append.mp hnd).2.2 hmem (List.mem_cons_self _ _)
  rw [mapIdxRow_id idxRemove row (vInt i) hid idxs,
    mapIdxRow_id idxAdd row2 (vInt i) hid2, List.map_map]
  intro p hp v
  obtain ⟨q, hq, rfl⟩ := List.mem_map.mp hp
  simp only [Function.comp]
  rw [if_pos (hcov q hq)]
  rw [if_pos (show containsKey row2
    (q.1, idxRemove q.2 (pyDictGet row q.1) (vInt i)).1 = true from hcov2 q hq)]
  show (idxLookup (idxAdd (idxRemove q.2 (pyDictGet row q.1) (vInt i))
      (pyDictGet row2 q.1) (vInt i)) v).Perm
    (liveIds (A ++ row2 :: B) q.1 v)
  have helems : ∀ x ∈ idxLookup q.2 v, pyEq x (vInt i) = (x == vInt i) := by
    intro x hx
    obtain ⟨j, rfl⟩ := liveIds_elem_vInt (A ++ row :: B) q.1 v x hform
      ((hlive q hq v).mem_iff.mp hx)
    exact pyEq_vInt j i
  have hL := hlive q hq v
  rw [liveIds_append, liveIds_cons, hid] at hL
  rw [lookup_idxAdd, lookup_idxRemove, liveIds_append, liveIds_cons, hid2]
  by_cases ha : pyEq (pyDictGet row q.1) v = true <;>
    by_cases hb : pyEq (pyDictGet row2 q.1) v = true
  · rw [if_pos ha] at hL
    rw [if_pos hb, if_pos hb, if_pos ha]
    have hL2 : (idxLookup q.2 v).Perm
        (liveIds A q.1 v ++ vInt i :: liveIds B q.1 v) := hL
    have hdel := perm_del_mid _ _ _ _
      (fun hmem => hIA (liveIds_subset A q.1 v _ hmem)) helems hL2
    show ((removeFirstPy (idxLookup q.2 v) (vInt i)) ++ [vInt i]).Perm
      (liveIds A q.1 v ++ vInt i :: liveIds B q.1 v)
    exact perm_ins_mid _ _ _ _ hdel
  · rw [if_pos ha] at hL
    rw [if_neg hb, if_neg hb, if_pos ha]
    have hL2 : (idxLookup q.2 v).Perm
        (liveIds A q.1 v ++ vInt i :: liveIds B q.1 v) := hL
    show (removeFirstPy (idxLookup q.2 v) (vInt i)).Perm
      (liveIds A q.1 v ++ liveIds B q.1 v)
    exact perm_del_mid _ _ _ _
      (fun hmem => hIA (liveIds_subset A q.1 v _ hmem)) helems hL2
  · rw [if_neg ha] at hL
    rw [if_pos hb, if_pos hb, if_neg ha]
    have hL2 : (idxLookup q.2 v).Perm
        (liveIds A q.1 v ++ liveIds B q.1 v) := hL
    show ((idxLookup q.2 v) ++ [vInt i]).Perm
      (liveIds A q.1 v ++ vInt i :: liveIds B q.1 v)
    exact perm_ins_mid _ _ _ _ hL2
  · rw [if_neg ha] at hL
    rw [if_neg hb, if_neg hb, if_neg ha]
    exact hL

/-! #### `WF` is established by `Table.__init__` and preserved by insert -/

theorem insert_row_id (t : Table) (d : Row) (row : Row)
    (hnoid : ∀ col ∈ t.columns, col.name ≠ "_id")
    (h : insertLoop t d t.columns [("_id", vInt t.next_id)] = some row) :
    rowGet row "_id" = some (vInt t.next_id) := by
  rw [insertLoop_rowGet_of_notin t d t.columns [("_id", vInt t.next_id)] row "_id"
    hnoid h]
  rfl

theorem insert_row_contains (t : Table) (d : Row) (row : Row)
    (hnodup : (t.columns.map Column.name).Nodup)
    (h : insertLoop t d t.columns [("_id", vInt t.next_id)] = some row) :
    ∀ col ∈ t.columns, containsKey row col.name = true := by
  intro col hc
  obtain ⟨v, _, hrg⟩ := insertLoop_step_mem t d t.columns _ row col hnodup hc h
  rw [containsKey_eq_isSome, hrg]
  rfl

theorem Table.insert_eq (t : Table) (d : Row) (row0 : Row)
    (hloop : insertLoop t d t.columns [("_id", vInt t.next_id)] = some row0) :
    t.insert d = some
      ({ t with
          rows := t.rows ++ [row0]
          next_id := t.next_id + 1
          indexes := t.indexes.map (fun p =>
            if containsKey row0 p.1 then
              (p.1, idxAdd p.2 (pyDictGet row0 p.1) (vInt t.next_id))
            else p) }, row0) := by
  unfold Table.insert
  rw [hloop]

theorem wf_insert (t : Table) (hwf : WF t) (d : Row) (t1 : Table) (row : Row)
    (h : t.insert d = some (t1, row)) : WF t1 := by
  cases hloop : insertLoop t d t.columns [("_id", vInt t.next_id)] with
  | none =>
    unfold Table.insert at h
    rw [hloop] at h
    exact Option.noConfusion h
  | some row0 =>
    rw [Table.insert_eq t d row0 hloop] at h
    injection h with h2
    injection h2 with ht1 hrow
    subst hrow
    rw [← ht1]
    have hid0 : rowGet row0 "_id" = some (vInt t.next_id) :=
      insert_row_id t d row0 hwf.noid hloop
    have hcont : ∀ col ∈ t.columns, containsKey row0 col.name = true :=
      insert_row_contains t d row0 hwf.colnames hloop
    have hcontIdx : ∀ p ∈ t.indexes, containsKey row0 p.1 = true := by
      intro p hp
      have hmem : p.1 ∈ t.indexes.map Prod.fst := List.mem_map_of_mem _ hp
      rw [hwf.idxnames] at hmem
      obtain ⟨col, hcolmem, hname⟩ := List.mem_map.mp hmem
      rw [← hname]
      exact hcont col (List.mem_of_mem_filter hcolmem)
    have hidx : ({ t with
        rows := t.rows ++ [row0]
        next_id := t.next_id + 1
        indexes := t.indexes.map (fun p =>
          if containsKey row0 p.1 then
            (p.1, idxAdd p.2 (pyDictGet row0 p.1) (vInt t.next_id))
          else p) } : Table).indexes = (mapIdxRow idxAdd t.indexes row0).1 := by
      rw [mapIdxRow_id idxAdd row0 (vInt t.next_id) hid0 t.indexes]
    refine ⟨?_, ?_, hwf.colnames, hwf.noid, ?_, ?_, ?_⟩
    · intro r hr
      rcases List.mem_append.mp hr with hr | hr
      · obtain ⟨i, hi, hlt⟩ := hwf.idform r hr
        refine ⟨i, hi, ?_⟩
        show i < t.next_id + 1
        omega
      · rw [List.mem_singleton.mp hr]
        refine ⟨t.next_id, hid0, ?_⟩
        show t.next_id < t.next_id + 1
        omega
    · show (rowsIds (t.rows ++ [row0])).Nodup
      rw [rowsIds_append, List.nodup_append]
      refine ⟨hwf.idnodup, ?_, ?_⟩
      · rw [rowsIds_cons, hid0]
        simp [rowsIds]
      · intro x hx hx2
        have hxe : x = vInt t.next_id := by
          rw [rowsIds_cons, hid0] at hx2
          simpa [rowsIds] using hx2
        subst hxe
        obtain ⟨r, hr, hrid⟩ := (mem_rowsIds t.rows _).mp hx
        obtain ⟨i, hi, hlt⟩ := hwf.idform r hr
        rw [hrid] at hi
        have hii := Option.some.inj hi
        injection hii with hii
        omega
    · show (t.indexes.map _).map Prod.fst = _
      rw [map_fst_transform _ _
        (fun p hp => by by_cases hc : containsKey row0 p.1 <;> simp [hc])]
      exact hwf.idxnames
    · intro r hr p hp
      obtain ⟨q, hq, rfl⟩ := List.mem_map.mp hp
      have hp1 : (if containsKey row0 q.1 then
          (q.1, idxAdd q.2 (pyDictGet row0 q.1) (vInt t.next_id)) else q).1 = q.1 := by
        by_cases hc : containsKey row0 q.1 <;> simp [hc]
      rw [hp1]
      rcases List.mem_append.mp hr with hr | hr
      · exact hwf.cover r hr q hq
      · rw [List.mem_singleton.mp hr]
        exact hcontIdx q hq
    · intro p hp v
      rw [hidx] at hp
      exact live_add_row t.indexes t.rows row0 (vInt t.next_id) hid0 hcontIdx
        hwf.live p hp v

theorem colsDictInsert_fresh (d : List Column) (c : Column)
    (h : ∀ c0 ∈ d, c0.name ≠ c.name) : colsDictInsert d c = d ++ [c] := by
  induction d with
  | nil => rfl
  | cons c0 rest ih =>
    show (if c0.name == c.name then c :: rest else c0 :: colsDictInsert rest c) = _
    rw [if_neg (by simp [h c0 (List.mem_cons_self _ _)]),
      ih (fun x hx => h x (List.mem_cons_of_mem _ hx))]
    rfl

theorem foldl_colsDict_fresh : ∀ (cols : List Column) (acc : List Column),
    (∀ c ∈ cols, ∀ c0 ∈ acc, c0.name ≠ c.name) →
    (cols.map Column.name).Nodup →
    cols.foldl colsDictInsert acc = acc ++ cols := by
  intro cols
  induction cols with
  | nil => intro acc _ _; simp
  | cons c rest ih =>
    intro acc hd hn
    rw [List.foldl_cons,
      colsDictInsert_fresh acc c (fun c0 h0 => hd c (List.mem_cons_self _ _) c0 h0)]
    have hfresh : ∀ x ∈ rest, ∀ c0 ∈ acc ++ [c], c0.name ≠ x.name := by
      intro x hx c0 h0
      rcases List.mem_append.mp h0 with h0 | h0
      · exact hd x (List.mem_cons_of_mem _ hx) c0 h0
      · rw [List.mem_singleton.mp h0]
        intro he
        exact (List.nodup_cons.mp hn).1 (he ▸ List.mem_map_of_mem Column.name hx)
    rw [ih (acc ++ [c]) hfresh (List.nodup_cons.mp hn).2, List.append_assoc]
    rfl

theorem mkColumnsDict_id (cols : List Column)
    (hn : (cols.map Column.name).Nodup) : mkColumnsDict cols = cols := by
  unfold mkColumnsDict
  rw [foldl_colsDict_fresh cols [] (by intro c hc c0 h0; cases h0) hn]
  rfl

theorem idxDictInsert_fresh (d : List (String × Index)) (nm : String)
    (h : ∀ p ∈ d, p.1 ≠ nm) : idxDictInsert d nm = d ++ [(nm, ([] : Index))] := by
  induction d with
  | nil => rfl
  | cons p rest ih =>
    obtain ⟨k, idx⟩ := p
    show (if k == nm then (k, ([] : Index)) :: rest
      else (k, idx) :: idxDictInsert rest nm) = _
    rw [if_neg (by simpa using h (k, idx) (List.mem_cons_self _ _)),
      ih (fun q hq => h q (List.mem_cons_of_mem _ hq))]
    rfl

theorem foldl_idxDict_fresh : ∀ (cs : List Column) (acc : List (String × Index)),
    (∀ c ∈ cs, ∀ p ∈ acc, p.1 ≠ c.name) →
    (cs.map Column.name).Nodup →
    cs.foldl (fun d c => idxDictInsert d c.name) acc =
      acc ++ cs.map (fun c => (c.name, ([] : Index))) := by
  intro cs
  induction cs with
  | nil => intro acc _ _; simp
  | cons c rest ih =>
    intro acc hd hn
    rw [List.foldl_cons,
      idxDictInsert_fresh acc c.name (fun p hp => hd c (List.mem_cons_self _ _) p hp)]
    have hfresh : ∀ x ∈ rest, ∀ p ∈ acc ++ [(c.name, ([] : Index))], p.1 ≠ x.name := by
      intro x hx p hp
      rcases List.mem_append.mp hp with hp | hp
      · exact hd x (List.mem_cons_of_mem _ hx) p hp
      · rw [List.mem_singleton.mp hp]
        intro he
        have he2 : c.name = x.name := he
        exact (List.nodup_cons.mp hn).1 (he2 ▸ List.mem_map_of_mem Column.name hx)
    rw [ih (acc ++ [(c.name, ([] : Index))]) hfresh (List.nodup_cons.mp hn).2,
      List.append_assoc]
    rfl

theorem new_indexes_eq (nm : String) (cols : List Column)
    (hn : (cols.map Column.name).Nodup) :
    (Table.new nm cols).indexes =
      (cols.filter (fun c => c.primary_key || c.unique)).map
        (fun c => (c.name, ([] : Index))) := by
  show (cols.filter _).foldl (fun d c => idxDictInsert d c.name) [] = _
  refine foldl_idxDict_fresh _ [] (by intro c hc p hp; cases hp) ?_
  exact List.Nodup.sublist (List.Sublist.map Column.name (List.filter_sublist _)) hn

/-- `Table.__init__` establishes the invariant (for any schema with distinct
column names, none of them the internal `_id`). -/
theorem wf_new (nm : String) (cols : List Column)
    (hn : (cols.map Column.name).Nodup)
    (hid : ∀ c ∈ cols, c.name ≠ "_id") : WF (Table.new nm cols) := by
  have hmk : mkColumnsDict cols = cols := mkColumnsDict_id cols hn
  have hidx := new_indexes_eq nm cols hn
  refine ⟨?_, ?_, ?_, ?_, ?_, ?_, ?_⟩
  · intro r hr
    exact absurd hr (List.not_mem_nil r)
  · exact List.nodup_nil
  · show ((mkColumnsDict cols).map Column.name).Nodup
    rw [hmk]
    exact hn
  · intro col hc
    have hc2 : col ∈ mkColumnsDict cols := hc
    rw [hmk] at hc2
    exact hid col hc2
  · show (Table.new nm cols).indexes.map Prod.fst =
      ((mkColumnsDict cols).filter (fun c => c.primary_key || c.unique)).map
        Column.name
    rw [hmk, hidx, List.map_map]
    rfl
  · intro r hr
    exact absurd hr (List.not_mem_nil r)
  · intro p hp v
    rw [hidx] at hp
    obtain ⟨c, hc, rfl⟩ := List.mem_map.mp hp
    exact List.Perm.nil

/-! #### `WF` is re-established by the snapshot round trip -/

theorem rebuildIdx_cons (row : Row) (rest : List Row)
    (idxs : List (String × Index)) :
    rebuildIdx (row :: rest) idxs =
      if (mapIdxRow idxAdd idxs row).2 = true then
        rebuildIdx rest (mapIdxRow idxAdd idxs row).1
      else none := rfl

theorem rebuildIdx_inv : ∀ (rows : List Row) (idxs idxs2 : List (String × Index))
    (acc : List Row),
    rebuildIdx rows idxs = some idxs2 →
    (∀ r ∈ rows, ∃ j : Int, rowGet r "_id" = some (vInt j)) →
    (∀ r ∈ rows, ∀ p ∈ idxs, containsKey r p.1 = true) →
    (∀ p ∈ idxs, ∀ v, (idxLookup p.2 v).Perm (liveIds acc p.1 v)) →
    idxs2.map Prod.fst = idxs.map Prod.fst ∧
    (∀ p ∈ idxs2, ∀ v, (idxLookup p.2 v).Perm (liveIds (acc ++ rows) p.1 v)) := by
  intro rows
  induction rows with
  | nil =>
    intro idxs idxs2 acc h hform hcov hlive
    injection h with h1
    subst h1
    refine ⟨rfl, ?_⟩
    intro p hp v
    rw [List.append_nil]
    exact hlive p hp v
  | cons row rest ih =>
    intro idxs idxs2 acc h hform hcov hlive
    obtain ⟨i, hid⟩ := hform row (List.mem_cons_self _ _)
    have hx := mapIdxRow_id idxAdd row (vInt i) hid idxs
    have h1 : (mapIdxRow idxAdd idxs row).2 = true := by rw [hx]
    rw [rebuildIdx_cons, if_pos h1] at h
    have hfst := mapIdxRow_fst idxAdd row (vInt i) hid idxs
    have hname : ∀ p ∈ (mapIdxRow idxAdd idxs row).1, ∃ q ∈ idxs, q.1 = p.1 := by
      intro p hp
      have hmem : p.1 ∈ idxs.map Prod.fst := by
        rw [← hfst]
        exact List.mem_map_of_mem _ hp
      obtain ⟨q, hq, hq1⟩ := List.mem_map.mp hmem
      exact ⟨q, hq, hq1⟩
    have key := ih (mapIdxRow idxAdd idxs row).1 idxs2 (acc ++ [row]) h
      (fun r hr => hform r (List.mem_cons_of_mem _ hr))
      (by
        intro r hr p hp
        obtain ⟨q, hq, hq1⟩ := hname p hp
        rw [← hq1]
        exact hcov r (List.mem_cons_of_mem _ hr) q hq)
      (live_add_row idxs acc row (vInt i) hid
        (fun p hp => hcov row (List.mem_cons_self _ _) p hp) hlive)
    refine ⟨key.1.trans hfst, ?_⟩
    intro p hp v
    have hthis := key.2 p hp v
    rw [List.append_assoc] at hthis
    exact hthis

theorem Table.fromDict_char (d : TableSnap) :
    Table.fromDict d =
      match rebuildIdx d.rows (Table.new d.name d.columns).indexes with
      | some idxs => some { name := d.name
                            columns := mkColumnsDict d.columns
                            rows := d.rows
                            next_id := d.next_id
                            indexes := idxs }
      | none => none := rfl

theorem wf_roundTrip (t : Table) (hwf : WF t) (t4 : Table)
    (h : t.roundTrip = some t4) : WF t4 := by
  have hchar : t.roundTrip =
      match rebuildIdx t.rows (Table.new t.name t.columns).indexes with
      | some idxs => some { name := t.name
                            columns := mkColumnsDict t.columns
                            rows := t.rows
                            next_id := t.next_id
                            indexes := idxs }
      | none => none := Table.fromDict_char (Table.toDict t)
  rw [hchar] at h
  cases hre : rebuildIdx t.rows (Table.new t.name t.columns).indexes with
  | none =>
    rw [hre] at h
    exact Option.noConfusion h
  | some idxs2 =>
    rw [hre] at h
    injection h with h4
    have hmk : mkColumnsDict t.columns = t.columns := mkColumnsDict_id t.columns hwf.colnames
    have hidx := new_indexes_eq t.name t.columns hwf.colnames
    have hbnames : (Table.new t.name t.columns).indexes.map Prod.fst =
        (t.columns.filter (fun c => c.primary_key || c.unique)).map Column.name := by
      rw [hidx, List.map_map]
      rfl
    have hform : ∀ r ∈ t.rows, ∃ j : Int, rowGet r "_id" = some (vInt j) :=
      fun r hr => (hwf.idform r hr).imp (fun i hi => hi.1)
    have hcov0 : ∀ r ∈ t.rows, ∀ p ∈ (Table.new t.name t.columns).indexes,
        containsKey r p.1 = true := by
      intro r hr p hp
      have hmem : p.1 ∈ t.indexes.map Prod.fst := by
        rw [hwf.idxnames, ← hbnames]
        exact List.mem_map_of_mem _ hp
      obtain ⟨q, hq, hq1⟩ := List.mem_map.mp hmem
      rw [← hq1]
      exact hwf.cover r hr q hq
    have hlive0 : ∀ p ∈ (Table.new t.name t.columns).indexes, ∀ v : Value,
        (idxLookup p.2 v).Perm (liveIds ([] : List Row) p.1 v) := by
      intro p hp v
      rw [hidx] at hp
      obtain ⟨c, hc, rfl⟩ := List.mem_map.mp hp
      exact List.Perm.nil
    have key := rebuildIdx_inv t.rows (Table.new t.name t.columns).indexes idxs2 []
      hre hform hcov0 hlive0
    rw [← h4]
    refine ⟨hwf.idform, hwf.idnodup, ?_, ?_, ?_, ?_, ?_⟩
    · show ((mkColumnsDict t.columns).map Column.name).Nodup
      rw [hmk]
      exact hwf.colnames
    · intro col hc
      have hc2 : col ∈ mkColumnsDict t.columns := hc
      rw [hmk] at hc2
      exact hwf.noid col hc2
    · show idxs2.map Prod.fst =
        ((mkColumnsDict t.columns).filter (fun c => c.primary_key || c.unique)).map
          Column.name
      rw [hmk, key.1, hbnames]
    · intro r hr p hp
      have hmem : p.1 ∈ t.indexes.map Prod.fst := by
        rw [hwf.idxnames, ← hbnames, ← key.1]
        exact List.mem_map_of_mem _ hp
      obtain ⟨q, hq, hq1⟩ := List.mem_map.mp hmem
      rw [← hq1]
      exact hwf.cover r hr q hq
    · intro p hp v
      exact key.2 p hp v

/-! #### `WF` is preserved by delete (and stale ids disappear) -/

theorem deleteScan_cons (w row : Row) (rest : List Row)
    (idxs : List (String × Index)) :
    deleteScan w (row :: rest) idxs =
      if rowMatches w row = true then
        if (mapIdxRow idxRemove idxs row).2 = true then
          ((deleteScan w rest (mapIdxRow idxRemove idxs row).1).1,
           (deleteScan w rest (mapIdxRow idxRemove idxs row).1).2.1 + 1,
           (deleteScan w rest (mapIdxRow idxRemove idxs row).1).2.2)
        else ((mapIdxRow idxRemove idxs row).1, 0, false)
      else deleteScan w rest idxs := rfl

theorem deleteScan_inv (w : Row) : ∀ (rows : List Row)
    (idxs : List (String × Index)) (acc : List Row)
    (idxs2 : List (String × Index)) (cnt : Nat),
    deleteScan w rows idxs = (idxs2, cnt, true) →
    (∀ r ∈ acc ++ rows, ∃ j : Int, rowGet r "_id" = some (vInt j)) →
    (rowsIds (acc ++ rows)).Nodup →
    (∀ r ∈ rows, ∀ p ∈ idxs, containsKey r p.1 = true) →
    (∀ p ∈ idxs, ∀ v, (idxLookup p.2 v).Perm (liveIds (acc ++ rows) p.1 v)) →
    idxs2.map Prod.fst = idxs.map Prod.fst ∧
    (∀ p ∈ idxs2, ∀ v, (idxLookup p.2 v).Perm
      (liveIds (acc ++ rows.filter (fun r => !rowMatches w r)) p.1 v)) := by
  intro rows
  induction rows with
  | nil =>
    intro idxs acc idxs2 cnt hgo hform hnd hcov hlive
    injection hgo with h1 h2
    subst h1
    exact ⟨rfl, hlive⟩
  | cons row rest ih =>
    intro idxs acc idxs2 cnt hgo hform hnd hcov hlive
    rw [deleteScan_cons] at hgo
    by_cases hm : rowMatches w row = true
    · rw [if_pos hm] at hgo
      have hrowmem : row ∈ acc ++ row :: rest :=
        List.mem_append_right _ (List.mem_cons_self _ _)
      obtain ⟨i, hidrow⟩ := hform row hrowmem
      have hx := mapIdxRow_id idxRemove row (vInt i) hidrow idxs
      have h1 : (mapIdxRow idxRemove idxs row).2 = true := by rw [hx]
      rw [if_pos h1] at hgo
      injection hgo with ha hb
      injection hb with hb hc
      have hgo2 : deleteScan w rest (mapIdxRow idxRemove idxs row).1 =
          (idxs2, (deleteScan w rest (mapIdxRow idxRemove idxs row).1).2.1, true) := by
        rw [← ha, ← hc]
      have hfst := mapIdxRow_fst idxRemove row (vInt i) hidrow idxs
      have hname : ∀ p ∈ (mapIdxRow idxRemove idxs row).1, ∃ q ∈ idxs, q.1 = p.1 := by
        intro p hp
        have hmem : p.1 ∈ idxs.map Prod.fst := by
          rw [← hfst]
          exact List.mem_map_of_mem _ hp
        obtain ⟨q, hq, hq1⟩ := List.mem_map.mp hmem
        exact ⟨q, hq, hq1⟩
      have hsub : (acc ++ rest).Sublist (acc ++ row :: rest) :=
        List.Sublist.append_left (List.sublist_cons_self _ _) acc
      have key := ih (mapIdxRow idxRemove idxs row).1 acc idxs2 _ hgo2
        (fun r hr => hform r (hsub.subset hr))
        (List.Nodup.sublist (List.Sublist.filterMap _ hsub) hnd)
        (by
          intro r hr p hp
          obtain ⟨q, hq, hq1⟩ := hname p hp
          rw [← hq1]
          exact hcov r (List.mem_cons_of_mem _ hr) q hq)
        (live_remove_row idxs acc rest row i hidrow hform hnd
          (fun p hp => hcov row (List.mem_cons_self _ _) p hp) hlive)
      refine ⟨key.1.trans hfst, ?_⟩
      have hf : (row :: rest).filter (fun r => !rowMatches w r) =
          rest.filter (fun r => !rowMatches w r) := by
        rw [List.filter_cons]
        simp [hm]
      rw [hf]
      exact key.2
    · rw [if_neg hm] at hgo
      have hre : (acc ++ [row]) ++ rest = acc ++ row :: rest := by
        rw [List.append_assoc]
        rfl
      have key := ih idxs (acc ++ [row]) idxs2 cnt hgo
        (by rw [hre]; exact hform)
        (by rw [hre]; exact hnd)
        (fun r hr p hp => hcov r (List.mem_cons_of_mem _ hr) p hp)
        (by rw [hre]; exact hlive)
      refine ⟨key.1, ?_⟩
      have hf : (row :: rest).filter (fun r => !rowMatches w r) =
          row :: rest.filter (fun r => !rowMatches w r) := by
        rw [List.filter_cons]
        simp [hm]
      have hre2 : (acc ++ [row]) ++ rest.filter (fun r => !rowMatches w r) =
          acc ++ row :: rest.filter (fun r => !rowMatches w r) := by
        rw [List.append_assoc]
        rfl
      rw [hf, ← hre2]
      exact key.2

theorem Table.delete_char (t : Table) (w : Row) :
    t.delete w = (if (deleteScan w t.rows t.indexes).2.2 = true
      then ({ t with
              rows := t.rows.filter (fun r => !rowMatches w r)
              indexes := (deleteScan w t.rows t.indexes).1 },
            some (deleteScan w t.rows t.indexes).2.1)
      else ({ t with indexes := (deleteScan w t.rows t.indexes).1 }, none)) := rfl

theorem wf_delete (t : Table) (hwf : WF t) (w : Row) (t3 : Table) (n : Nat)
    (h : t.delete w = (t3, some n)) :
    WF t3 ∧ t3.rows = t.rows.filter (fun r => !rowMatches w r) := by
  cases hok : (deleteScan w t.rows t.indexes).2.2 with
  | false =>
    rw [Table.delete_char, if_neg (by rw [hok]; simp)] at h
    injection h with h1 h2
    exact Option.noConfusion h2
  | true =>
    rw [Table.delete_char, if_pos hok] at h
    injection h with h1 h2
    have hgo : deleteScan w t.rows t.indexes =
        ((deleteScan w t.rows t.indexes).1,
         (deleteScan w t.rows t.indexes).2.1, true) := by
      rw [← hok]
    have key := deleteScan_inv w t.rows t.indexes [] _ _ hgo
      (fun r hr => (hwf.idform r hr).imp (fun i hi => hi.1))
      hwf.idnodup hwf.cover hwf.live
    rw [← h1]
    refine ⟨⟨?_, ?_, hwf.colnames, hwf.noid, ?_, ?_, ?_⟩, rfl⟩
    · intro r hr
      exact hwf.idform r (List.mem_of_mem_filter hr)
    · exact List.Nodup.sublist
        (List.Sublist.filterMap _ (List.filter_sublist t.rows)) hwf.idnodup
    · show (deleteScan w t.rows t.indexes).1.map Prod.fst = _
      rw [key.1]
      exact hwf.idxnames
    · intro r hr p hp
      have hmem : p.1 ∈ t.indexes.map Prod.fst := by
        rw [← key.1]
        exact List.mem_map_of_mem _ hp
      obtain ⟨q, hq, hq1⟩ := List.mem_map.mp hmem
      rw [← hq1]
      exact hwf.cover r (List.mem_of_mem_filter hr) q hq
    · intro p hp v
      exact key.2 p hp v

/-- After a successful delete, no matching (hence deleted) row's id is left
in any index bucket. -/
theorem delete_no_stale (t : Table) (hwf : WF t) (w : Row) (t3 : Table)
    (hwf3 : WF t3)
    (hrows3 : t3.rows = t.rows.filter (fun r => !rowMatches w r)) :
    ∀ r ∈ t.rows, rowMatches w r = true → ∀ idv, rowGet r "_id" = some idv →
      ∀ p ∈ t3.indexes, ∀ v, idv ∉ idxLookup p.2 v := by
  intro r hr hmatch idv hidv p hp v hmem
  have hmem2 := (hwf3.live p hp v).mem_iff.mp hmem
  obtain ⟨r2, hr2, _, hid2⟩ := (mem_liveIds _ _ _ _).mp hmem2
  rw [hrows3] at hr2
  have hr2f := List.mem_filter.mp hr2
  have hrne : r2 ≠ r := by
    intro he
    rw [he, hmatch] at hr2f
    simpa using hr2f.2
  exact hrne (row_id_unique t.rows hwf.idnodup r2 r idv hr2f.1 hr hid2 hidv)

/-! #### `WF` is preserved by a successful update -/

theorem updateGo_cons (cols : List Column) (data w row : Row) (rest : List Row)
    (idxs : List (String × Index)) (acc : List Row) (n : Nat) :
    updateGo cols data w (row :: rest) idxs acc n =
      if rowMatches w row then
        if !(mapIdxRow idxRemove idxs row).2 then
          (acc.reverse ++ row :: rest, (mapIdxRow idxRemove idxs row).1, none)
        else
          if !(applyFields cols data row).2 then
            (acc.reverse ++ (applyFields cols data row).1 :: rest,
             (mapIdxRow idxRemove idxs row).1, none)
          else
            if !(mapIdxRow idxAdd (mapIdxRow idxRemove idxs row).1
                  (applyFields cols data row).1).2 then
              (acc.reverse ++ (applyFields cols data row).1 :: rest,
               (mapIdxRow idxAdd (mapIdxRow idxRemove idxs row).1
                 (applyFields cols data row).1).1, none)
            else
              updateGo cols data w rest
                (mapIdxRow idxAdd (mapIdxRow idxRemove idxs row).1
                  (applyFields cols data row).1).1
                ((applyFields cols data row).1 :: acc) (n + 1)
      else updateGo cols data w rest idxs (row :: acc) n := rfl

theorem updateGo_inv (cols : List Column) (data w : Row)
    (hnoid : ∀ col ∈ cols, col.name ≠ "_id") :
    ∀ (rows : List Row) (idxs : List (String × Index)) (acc : List Row) (n : Nat)
      (rows2 : List Row) (idxs2 : List (String × Index)) (n2 : Nat),
      updateGo cols data w rows idxs acc n = (rows2, idxs2, some n2) →
      (∀ r ∈ acc.reverse ++ rows, ∃ j : Int, rowGet r "_id" = some (vInt j)) →
      (rowsIds (acc.reverse ++ rows)).Nodup →
      (∀ r ∈ acc.reverse ++ rows, ∀ p ∈ idxs, containsKey r p.1 = true) →
      (∀ p ∈ idxs, ∀ v, (idxLookup p.2 v).Perm (liveIds (acc.reverse ++ rows) p.1 v)) →
      idxs2.map Prod.fst = idxs.map Prod.fst ∧
      (∀ r ∈ rows2, ∃ j : Int, rowGet r "_id" = some (vInt j) ∧
        vInt j ∈ rowsIds (acc.reverse ++ rows)) ∧
      rowsIds rows2 = rowsIds (acc.reverse ++ rows) ∧
      (∀ r ∈ rows2, ∀ p ∈ idxs, containsKey r p.1 = true) ∧
      (∀ p ∈ idxs2, ∀ v, (idxLookup p.2 v).Perm (liveIds rows2 p.1 v)) := by
  intro rows
  induction rows with
  | nil =>
    intro idxs acc n rows2 idxs2 n2 hgo hform hnd hcov hlive
    injection hgo with h1 h23
    injection h23 with h2 h3
    subst h1
    subst h2
    rw [List.append_nil] at hform hnd hcov hlive ⊢
    refine ⟨rfl, ?_, rfl, hcov, hlive⟩
    intro r hr
    obtain ⟨j, hj⟩ := hform r hr
    exact ⟨j, hj, (mem_rowsIds _ _).mpr ⟨r, hr, hj⟩⟩
  | cons row rest ih =>
    intro idxs acc n rows2 idxs2 n2 hgo hform hnd hcov hlive
    rw [updateGo_cons] at hgo
    by_cases hm : rowMatches w row = true
    · rw [if_pos hm] at hgo
      have hrowmem : row ∈ acc.reverse ++ row :: rest :=
        List.mem_append_right _ (List.mem_cons_self _ _)
      obtain ⟨i, hidrow⟩ := hform row hrowmem
      have hx1 := mapIdxRow_id idxRemove row (vInt i) hidrow idxs
      have h1 : (mapIdxRow idxRemove idxs row).2 = true := by rw [hx1]
      rw [h1] at hgo
      cases hok2 : (applyFields cols data row).2 with
      | false =>
        rw [hok2] at hgo
        simp at hgo
      | true =>
        rw [hok2] at hgo
        have hid2 : rowGet (applyFields cols data row).1 "_id" = some (vInt i) := by
          rw [applyFields_rowGet cols data "_id" hnoid row, hidrow]
        have hx3 := mapIdxRow_id idxAdd (applyFields cols data row).1 (vInt i) hid2
          (mapIdxRow idxRemove idxs row).1
        have h3 : (mapIdxRow idxAdd (mapIdxRow idxRemove idxs row).1
            (applyFields cols data row).1).2 = true := by rw [hx3]
        rw [h3] at hgo
        simp only [Bool.not_true, Bool.false_eq_true, if_false] at hgo
        have hre : ((applyFields cols data row).1 :: acc).reverse ++ rest =
            acc.reverse ++ (applyFields cols data row).1 :: rest := by
          rw [List.reverse_cons, List.append_assoc]
          rfl
        have hfst3 : ((mapIdxRow idxAdd (mapIdxRow idxRemove idxs row).1
            (applyFields cols data row).1).1).map Prod.fst = idxs.map Prod.fst := by
          rw [mapIdxRow_fst idxAdd (applyFields cols data row).1 (vInt i) hid2,
            mapIdxRow_fst idxRemove row (vInt i) hidrow]
        have hname : ∀ p ∈ (mapIdxRow idxAdd (mapIdxRow idxRemove idxs row).1
            (applyFields cols data row).1).1, ∃ q ∈ idxs, q.1 = p.1 := by
          intro p hp
          have hmem : p.1 ∈ idxs.map Prod.fst := by
            rw [← hfst3]
            exact List.mem_map_of_mem _ hp
          obtain ⟨q, hq, hq1⟩ := List.mem_map.mp hmem
          exact ⟨q, hq, hq1⟩
        have hnd2eq : rowsIds (acc.reverse ++ (applyFields cols data row).1 :: rest) =
            rowsIds (acc.reverse ++ row :: rest) := by
          rw [rowsIds_append, rowsIds_append, rowsIds_cons, rowsIds_cons, hidrow, hid2]
        have hcovRow : ∀ p ∈ idxs, containsKey row p.1 = true :=
          fun p hp => hcov row hrowmem p hp
        have hcovRow2 : ∀ p ∈ idxs, containsKey (applyFields cols data row).1 p.1 = true :=
          fun p hp => applyFields_containsKey cols data p.1 row (hcovRow p hp)
        have key := ih (mapIdxRow idxAdd (mapIdxRow idxRemove idxs row).1
            (applyFields cols data row).1).1
          ((applyFields cols data row).1 :: acc) (n + 1) rows2 idxs2 n2 hgo
          (by
            rw [hre]
            intro r hr
            rcases List.mem_append.mp hr with hr | hr
            · exact hform r (List.mem_append_left _ hr)
            · rcases List.mem_cons.mp hr with he | hr
              · exact he ▸ ⟨i, hid2⟩
              · exact hform r (List.mem_append_right _ (List.mem_cons_of_mem _ hr)))
          (by rw [hre, hnd2eq]; exact hnd)
          (by
            rw [hre]
            intro r hr p hp
            obtain ⟨q, hq, hq1⟩ := hname p hp
            rw [← hq1]
            rcases List.mem_append.mp hr with hr | hr
            · exact hcov r (List.mem_append_left _ hr) q hq
            · rcases List.mem_cons.mp hr with he | hr
              · exact he ▸ hcovRow2 q hq
              · exact hcov r
                  (List.mem_append_right _ (List.mem_cons_of_mem _ hr)) q hq)
          (by
            rw [hre]
            exact live_replace_row idxs acc.reverse rest row
              (applyFields cols data row).1 i hidrow hid2 hform hnd
              hcovRow hcovRow2 hlive)
        refine ⟨key.1.trans hfst3, ?_, ?_, ?_, key.2.2.2.2⟩
        · intro r hr
          obtain ⟨j, hj, hjm⟩ := key.2.1 r hr
          rw [hre, hnd2eq] at hjm
          exact ⟨j, hj, hjm⟩
        · rw [key.2.2.1, hre, hnd2eq]
        · intro r hr p hp
          have hmem : p.1 ∈ idxs.map Prod.fst := List.mem_map_of_mem _ hp
          rw [← hfst3] at hmem
          obtain ⟨q, hq, hq1⟩ := List.mem_map.mp hmem
          rw [← hq1]
          exact key.2.2.2.1 r hr q hq
    · rw [if_neg hm] at hgo
      have hre : (row :: acc).reverse ++ rest = acc.reverse ++ row :: rest := by
        rw [List.reverse_cons, List.append_assoc]
        rfl
      have key := ih idxs (row :: acc) n rows2 idxs2 n2 hgo
        (by rw [hre]; exact hform)
        (by rw [hre]; exact hnd)
        (by rw [hre]; exact hcov)
        (by rw [hre]; exact hlive)
      rw [hre] at key
      exact key

theorem Table.update_char (t : Table) (data w : Row) :
    t.update data w =
      ({ t with
          rows := (updateGo t.columns data w t.rows t.indexes [] 0).1
          indexes := (updateGo t.columns data w t.rows t.indexes [] 0).2.1 },
       (updateGo t.columns data w t.rows t.indexes [] 0).2.2) := rfl

theorem wf_update (t : Table) (hwf : WF t) (data w : Row) (t2 : Table) (n : Nat)
    (h : t.update data w = (t2, some n)) : WF t2 := by
  rw [Table.update_char] at h
  injection h with h1 h2
  have hgo : updateGo t.columns data w t.rows t.indexes [] 0 =
      ((updateGo t.columns data w t.rows t.indexes [] 0).1,
       (updateGo t.columns data w t.rows t.indexes [] 0).2.1, some n) := by
    rw [← h2]
  have key := updateGo_inv t.columns data w hwf.noid t.rows t.indexes [] 0 _ _ n hgo
    (fun r hr => (hwf.idform r hr).imp (fun i hi => hi.1))
    hwf.idnodup hwf.cover hwf.live
  rw [← h1]
  refine ⟨?_, ?_, hwf.colnames, hwf.noid, ?_, ?_, key.2.2.2.2⟩
  · intro r hr
    obtain ⟨j, hj, hjm⟩ := key.2.1 r hr
    obtain ⟨r0, hr0, hid0⟩ := (mem_rowsIds _ _).mp hjm
    obtain ⟨i0, hi0, hlt⟩ := hwf.idform r0 hr0
    rw [hid0] at hi0
    have hii := Option.some.inj hi0
    injection hii with hii
    refine ⟨j, hj, ?_⟩
    show j < t.next_id
    omega
  · show (rowsIds (updateGo t.columns data w t.rows t.indexes [] 0).1).Nodup
    rw [key.2.2.1]
    exact hwf.idnodup
  · show ((updateGo t.columns data w t.rows t.indexes [] 0).2.1).map Prod.fst = _
    rw [key.1]
    exact hwf.idxnames
  · intro r hr p hp
    have hmem : p.1 ∈ t.indexes.map Prod.fst := by
      rw [← key.1]
      exact List.mem_map_of_mem _ hp
    obtain ⟨q, hq, hq1⟩ := List.mem_map.mp hmem
    rw [← hq1]
    exact key.2.2.2.1 r hr q hq

/-- C2: starting from a well-formed table, after each engine operation
(insert, update, delete, snapshot restore) completes successfully, every
index maps every value to exactly the ids of the currently live rows holding
a Python-equal value in that column (as a multiset: same ids, bucket order
unspecified), and well-formedness is re-established; in particular after
`Table.delete` no deleted row's id remains in any bucket. -/
theorem claim2_index_live_invariant (t : Table) (hwf : WF t) :
    (∀ d t1 row, t.insert d = some (t1, row) → WF t1 ∧ IndexesMatchLive t1) ∧
    (∀ data w t2 n, t.update data w = (t2, some n) → WF t2 ∧ IndexesMatchLive t2) ∧
    (∀ w t3 n, t.delete w = (t3, some n) →
      (WF t3 ∧ IndexesMatchLive t3) ∧
      (∀ r ∈ t.rows, rowMatches w r = true → ∀ idv, rowGet r "_id" = some idv →
        ∀ p ∈ t3.indexes, ∀ v, idv ∉ idxLookup p.2 v)) ∧
    (∀ t4, t.roundTrip = some t4 → WF t4 ∧ IndexesMatchLive t4) := by
  refine ⟨?_, ?_, ?_, ?_⟩
  · intro d t1 row h
    have hw := wf_insert t hwf d t1 row h
    exact ⟨hw, hw.live⟩
  · intro data w t2 n h
    have hw := wf_update t hwf data w t2 n h
    exact ⟨hw, hw.live⟩
  · intro w t3 n h
    obtain ⟨hw, hrows⟩ := wf_delete t hwf w t3 n h
    exact ⟨⟨hw, hw.live⟩, delete_no_stale t hwf w t3 hw hrows⟩
  · intro t4 h
    have hw := wf_roundTrip t hwf t4 h
    exact ⟨hw, hw.live⟩

def c2base : Table := Table.new "w2" [colIdPk, colXInt]
def c2t : Table := tabOf (c2base.insert [("id", vInt 1), ("x", vInt 5)])
def c2row : Row := (c2base.insert [("id", vInt 1), ("x", vInt 5)]).elim [] Prod.snd
def c2t2 : Table := tabOf (c2t.insert [("id", vInt 2), ("x", vInt 5)])
def c2row2 : Row := (c2t.insert [("id", vInt 2), ("x", vInt 5)]).elim [] Prod.snd

theorem claim2_witness : WF c2t2 ∧ IndexesMatchLive c2t2 :=
  (claim2_index_live_invariant c2t
    (wf_insert c2base (wf_new "w2" [colIdPk, colXInt] (by decide) (by decide))
      [("id", vInt 1), ("x", vInt 5)] c2t c2row (by rfl))).1
    [("id", vInt 2), ("x", vInt 5)] c2t2 c2row2 (by rfl)

/-- C5 (amended): for a well-formed (reachable) table, restoring the snapshot
yields a table whose `select` results are identical for every combination of
arguments, whose index dict covers the same columns, and whose index lookups
hold exactly the same row ids for every indexed column and value — though
possibly in a different order within a bucket. -/
theorem claim5_amended (t : Table) (hwf : WF t) (t5 : Table)
    (h : t.roundTrip = some t5) :
    (∀ cols w ob lim, t5.select cols w ob lim = t.select cols w ob lim) ∧
    t5.indexes.map Prod.fst = t.indexes.map Prod.fst ∧
    (∀ c v idx5 idx0, idxFind t5.indexes c = some idx5 →
      idxFind t.indexes c = some idx0 →
      (idxLookup idx5 v).Perm (idxLookup idx0 v)) := by
  have hw5 := wf_roundTrip t hwf t5 h
  have hchar : t.roundTrip =
      match rebuildIdx t.rows (Table.new t.name t.columns).indexes with
      | some idxs => some { name := t.name
                            columns := mkColumnsDict t.columns
                            rows := t.rows
                            next_id := t.next_id
                            indexes := idxs }
      | none => none := Table.fromDict_char (Table.toDict t)
  rw [hchar] at h
  cases hre : rebuildIdx t.rows (Table.new t.name t.columns).indexes with
  | none =>
    rw [hre] at h
    exact Option.noConfusion h
  | some idxs2 =>
    rw [hre] at h
    injection h with h4
    have hrows : t5.rows = t.rows := by rw [← h4]
    have hcols : t5.columns = t.columns := by
      rw [← h4]
      show mkColumnsDict t.columns = t.columns
      exact mkColumnsDict_id t.columns hwf.colnames
    have hnames : t5.indexes.map Prod.fst = t.indexes.map Prod.fst := by
      rw [hw5.idxnames, hcols, ← hwf.idxnames]
    refine ⟨?_, hnames, ?_⟩
    · intro cols w ob lim
      show selectRows t5.rows cols w ob lim = selectRows t.rows cols w ob lim
      rw [hrows]
    · intro c v idx5 idx0 h5 h0
      unfold idxFind at h5 h0
      obtain ⟨p5, hf5, hs5⟩ := Option.map_eq_some'.mp h5
      obtain ⟨p0, hf0, hs0⟩ := Option.map_eq_some'.mp h0
      have hm5 : p5 ∈ t5.indexes := List.mem_of_find?_eq_some hf5
      have hm0 : p0 ∈ t.indexes := List.mem_of_find?_eq_some hf0
      have he5 : p5.1 = c := by
        have := List.find?_some hf5
        simpa [beq_iff_eq] using this
      have he0 : p0.1 = c := by
        have := List.find?_some hf0
        simpa [beq_iff_eq] using this
      have l5 := hw5.live p5 hm5 v
      have l0 := hwf.live p0 hm0 v
      rw [hrows, he5, hs5] at l5
      rw [he0, hs0] at l0
      exact l5.trans l0.symm

theorem claim5_amended_witness :
    (∀ cols w ob lim, c5s4.select cols w ob lim = c5s3.select cols w ob lim) ∧
    c5s4.indexes.map Prod.fst = c5s3.indexes.map Prod.fst ∧
    (∀ c v idx5 idx0, idxFind c5s4.indexes c = some idx5 →
      idxFind c5s3.indexes c = some idx0 →
      (idxLookup idx5 v).Perm (idxLookup idx0 v)) :=
  claim5_amended c5s3
    (wf_update c5s2
      (wf_insert c5s1
        (wf_insert c5s0 (wf_new "s" [colCUnique] (by decide) (by decide))
          [("c", vInt 7)] c5s1 ((c5s0.insert [("c", vInt 7)]).elim [] Prod.snd)
          (by rfl))
        [("c", vInt 9)] c5s2 ((c5s1.insert [("c", vInt 9)]).elim [] Prod.snd)
        (by rfl))
      [("c", vInt 9)] [("_id", vInt 1)] c5s3 1 (by rfl))
    c5s4 (by rfl)

end Rdb
